import Mathlib
/-!
Verification of the patch engine of fix-ardour-lv2-index.

This file gives a shallow embedding of the core of the program, translated
from src/session.rs, src/lv2.rs and src/patch.rs, and proves properties of
that embedding.  Conventions:

* The source text is modeled as a list of characters (`Text`); the sessions
  the program edits are ASCII XML, so list positions coincide with the byte
  offsets used by the Rust code.
* u32 values are modeled as `Nat`; the one place the code performs u32
  arithmetic (the fallback counter increment in PortMap::index) is modeled
  with an explicit wrap modulo 2 ^ 32.
* HashMap state is modeled as an association list whose most recent insert
  sits at the head, with lookups taking the first matching key, which gives
  the same lookup results as the HashMap operations the code uses.
* The two external collaborators are modeled as data, following section 6 of
  the spec: the parsed roxmltree document as a tree of nodes with attribute
  byte ranges (`XNode`), and the lilv metadata provider as a port count plus
  a symbol lookup function (`Plugin`, `Plugins`); the NUL checks that lv2.rs
  performs at the CString boundary are part of the embedding because that
  code is in the repository.
-/

/-- The source text as a list of its bytes (the sessions are ASCII). -/
abbrev Text := List Char

/-- Half open byte range into the source text, as std::ops::Range of usize;
the field stop is the exclusive end of the range. -/
structure ByteRange where
  start : Nat
  stop : Nat
deriving DecidableEq

/-- Association list lookup, first match wins; models HashMap::get given the
convention that inserts cons the new entry at the head. -/
def mapGet {κ α : Type} [DecidableEq κ] (m : List (κ × α)) (k : κ) : Option α :=
  (m.find? fun e => decide (e.1 = k)).map (·.2)

/-- Numeric value of a most significant digit first list of decimal digit
characters (48 is the code of the zero digit). -/
def digitsToNat (l : List Char) : Nat :=
  l.foldl (fun a c => a * 10 + (c.toNat - 48)) 0

/-- Core loop of decimal formatting: peel the least significant digit and
prepend it, with the fuel argument (always sufficient at the call site)
keeping the recursion structural. -/
def decDigitsCore : Nat → Nat → List Char → List Char
  | 0, _, acc => acc
  | fuel + 1, n, acc =>
    if n < 10 then Char.ofNat (48 + n % 10) :: acc
    else decDigitsCore fuel (n / 10) (Char.ofNat (48 + n % 10) :: acc)

/-- Models the decimal formatting of a u32 by its Display implementation, as
invoked by the write call in the Display impl for PatchedSession: most
significant digit first, variable width, no leading zeros (zero itself is
the single zero digit). -/
def decDigits (n : Nat) : List Char :=
  decDigitsCore (n + 1) n []

/-- Models u32::from_str as called on an all digit string: fails when the
string is empty or the value exceeds the u32 maximum.  (The sign handling of
the Rust integer FromStr is unreachable here because the caller has already
checked that every byte is an ASCII digit.) -/
def parseU32Digits (s : String) : Option Nat :=
  if s.data = [] then none
  else if digitsToNat s.data < 2 ^ 32 then some (digitsToNat s.data) else none

/-- Models the FromStr impl for ParameterIndex in session.rs: reject the
string unless every byte is an ASCII digit, then parse it as a u32.  The
numeric value is kept as a bare Nat; ParameterIndex compares by value. -/
def ParameterIndex.fromStr (s : String) : Option Nat :=
  if s.data.all Char.isDigit then parseU32Digits s else none

/-- One attribute of a parsed XML node: its name, its value, and the byte
range the value occupies in the source text (roxmltree range_value). -/
structure XAttr where
  name : String
  value : String
  valueStart : Nat
  valueEnd : Nat
deriving DecidableEq

/-- Model of a parsed roxmltree node: tag name, attributes, and children in
document order.  Non element nodes (text, comments) are represented as nodes
whose tag matches none of the recognized names and which have no children,
which is how the traversal code observes them. -/
inductive XNode where
  | mk (tag : String) (attrs : List XAttr) (children : List XNode)

/-- Tag name of a node. -/
def XNode.tag : XNode → String
  | .mk t _ _ => t

/-- Attributes of a node. -/
def XNode.attrs : XNode → List XAttr
  | .mk _ a _ => a

/-- Children of a node in document order. -/
def XNode.children : XNode → List XNode
  | .mk _ _ c => c

/-- Models roxmltree Node::attribute_node. -/
def XNode.attrNode (n : XNode) (name : String) : Option XAttr :=
  n.attrs.find? fun a => decide (a.name = name)

/-- Models roxmltree Node::attribute. -/
def XNode.attr (n : XNode) (name : String) : Option String :=
  (n.attrNode name).map (·.value)

/-- session.rs Parameter: one resolvable occurrence exposed by a block. -/
structure Parameter where
  symbol : String
  location : ByteRange
  old_index : Nat
deriving DecidableEq

/-- session.rs Processor: the uri of the block, the index to symbol map
gathered from Controllable occurrences (association list, newest insert at
the head, matching HashMap::insert overwrite semantics), and every recorded
occurrence (index, byte range) in document order. -/
structure Processor where
  uri : String
  symbols : List (Nat × String)
  parameters : List (Nat × ByteRange)
deriving DecidableEq

/-- Models the strip_prefix call in on_automation_list for the ten byte
literal that index holder attribute values must begin with. -/
def stripParamPre (s : String) : Option String :=
  if s.data.take 10 = "parameter-".data then some (String.mk (s.data.drop 10))
  else none

/-- Models Processor::on_automation_list: an automation-id attribute whose
value is the literal followed by digits records an occurrence whose edit
range is the digit suffix of the attribute value range. -/
def Processor.onAutomationList (p : Processor) (n : XNode) : Processor :=
  match n.attrNode "automation-id" with
  | none => p
  | some attr =>
    match stripParamPre attr.value with
    | none => p
    | some index =>
      match ParameterIndex.fromStr index with
      | none => p
      | some parsed =>
        { p with parameters :=
            p.parameters ++ [(parsed, ⟨attr.valueStart + 10, attr.valueEnd⟩)] }

/-- Models Processor::on_controllable: a parameter attribute that parses as
an index plus a symbol attribute records both the occurrence and the index
to symbol association; a missing symbol skips the occurrence. -/
def Processor.onControllable (p : Processor) (n : XNode) : Processor :=
  match n.attrNode "parameter" with
  | none => p
  | some indexAttr =>
    match ParameterIndex.fromStr indexAttr.value with
    | none => p
    | some parsed =>
      match n.attr "symbol" with
      | none => p
      | some symbol =>
        { p with
            symbols := (parsed, symbol) :: p.symbols,
            parameters :=
              p.parameters ++ [(parsed, ⟨indexAttr.valueStart, indexAttr.valueEnd⟩)] }

mutual

/-- Models one step of the descendant walk in Processor::parse: the two
occurrence carrying tags are consumed without descending into them; every
other node is descended into.  The source drives this walk by first child
and next sibling chasing bounded by the block node; the recursion here is
the same pre order visit. -/
def Processor.walkNode (p : Processor) : XNode → Processor
  | .mk tag attrs children =>
    if tag = "AutomationList" then p.onAutomationList (.mk tag attrs children)
    else if tag = "Controllable" then p.onControllable (.mk tag attrs children)
    else Processor.walkChildren p children

/-- The descendant walk of Processor::parse over a sibling list. -/
def Processor.walkChildren (p : Processor) : List XNode → Processor
  | [] => p
  | n :: rest => Processor.walkChildren (Processor.walkNode p n) rest

end

/-- Models Processor::parse: nothing unless the type attribute equals the
literal lv2; a missing unique-id attribute skips the element; otherwise the
descendants are walked for occurrences. -/
def Processor.parse (n : XNode) : Option Processor :=
  if n.attr "type" ≠ some "lv2" then none
  else
    match n.attr "unique-id" with
    | none => none
    | some uri => some (Processor.walkChildren ⟨uri, [], []⟩ n.children)

/-- Models Processor::parameters: the stream of every recorded occurrence
whose index has an associated symbol in the map; occurrences whose index was
never associated with a symbol are dropped. -/
def Processor.parameterStream (p : Processor) : List Parameter :=
  p.parameters.filterMap fun e =>
    (mapGet p.symbols e.1).map fun s => ⟨s, e.2, e.1⟩

/-- True when the string contains a NUL byte, the condition under which
CString::new fails in lv2.rs. -/
def containsNul (s : String) : Bool :=
  s.data.any fun c => c = Char.ofNat 0

/-- Model of a lilv plugin handle (lv2.rs Plugin).  The lilv library itself
is external (section 6 of the spec); it is abstracted as the reported total
port count and the port index by symbol lookup, both pure because lilv
metadata queries are read only and the world is loaded once per run. -/
structure Plugin where
  numPorts : Nat
  portSym : String → Option Nat

/-- Models Plugin::port_index: a symbol containing NUL is rejected at the
CString boundary with a diagnostic and treated as not found; otherwise the
provider lookup decides. -/
def Plugin.port_index (p : Plugin) (symbol : String) : Option Nat :=
  if containsNul symbol then none else p.portSym symbol

/-- Model of lv2.rs Plugins: the loaded plugin database, abstracted as a
lookup from uri to plugin. -/
structure Plugins where
  findPlugin : String → Option Plugin

/-- Models Plugins::get: a uri containing NUL is rejected at the CString
boundary with a diagnostic and treated as not found; otherwise the database
lookup decides. -/
def Plugins.get (ps : Plugins) (uri : String) : Option Plugin :=
  if containsNul uri then none else ps.findPlugin uri

/-- patch.rs Replacement: one pending edit, the byte range to replace and
the new index value to write there. -/
structure Replacement where
  location : ByteRange
  value : Nat
deriving DecidableEq

/-- patch.rs PortId. -/
structure PortId where
  uri : String
  symbol : String
deriving DecidableEq

/-- patch.rs PortMap: the per uri fallback counters and the memoized
resolutions, as association lists (newest insert at the head). -/
structure PortMap where
  count : List (String × Nat)
  index : List (PortId × Nat)
deriving DecidableEq

/-- Models PortMap::index, called resolve here because the Lean projection
PortMap.index is the cache field.  A cache hit returns the memoized value;
otherwise the provider lookup is tried and memoized; otherwise the fallback
counter for the uri (started at the reported port count on first use)
supplies the value, is memoized for the key, and is incremented.  The
counter is a u32, so the increment wraps modulo 2 ^ 32. -/
def PortMap.resolve (pm : PortMap) (plugin : Plugin) (id : PortId) : Nat × PortMap :=
  match mapGet pm.index id with
  | some v => (v, pm)
  | none =>
    match plugin.port_index id.symbol with
    | some i => (i, { pm with index := (id, i) :: pm.index })
    | none =>
      let cnt :=
        match mapGet pm.count id.uri with
        | some c => c
        | none => plugin.numPorts
      (cnt,
        { count := (id.uri, (cnt + 1) % 2 ^ 32) :: pm.count,
          index := (id, cnt) :: pm.index })

/-- Models Patcher::handle_processor: when the plugin for the uri of the
block is not found the whole block is skipped; otherwise every parameter of
the stream is resolved and a replacement is recorded exactly when the
resolved index differs from the index already present. -/
def handleProcessor (plugins : Plugins) (st : PortMap × List Replacement)
    (proc : Processor) : PortMap × List Replacement :=
  match plugins.get proc.uri with
  | none => st
  | some plugin =>
    proc.parameterStream.foldl
      (fun st param =>
        let r := st.1.resolve plugin ⟨proc.uri, param.symbol⟩
        if r.1 = param.old_index then (r.2, st.2)
        else (r.2, st.2 ++ [⟨param.location, r.1⟩]))
      st

mutual

/-- Models the traversal of Patcher::populate_replacements: a node whose tag
is Processor is handed to Processor::parse and, whatever the outcome, its
subtree is not descended into by the outer walk; every other node is
descended into.  The source drives the walk by first child and next sibling
chasing; the recursion here is the same pre order visit. -/
def collectProcs : XNode → List Processor
  | .mk tag attrs children =>
    if tag = "Processor" then
      match Processor.parse (.mk tag attrs children) with
      | some p => [p]
      | none => []
    else collectProcsList children

/-- The outer walk over a sibling list. -/
def collectProcsList : List XNode → List Processor
  | [] => []
  | n :: rest => collectProcs n ++ collectProcsList rest

end

/-- Models Patcher::populate_replacements: every Processor block in document
order is handled, threading the PortMap and the replacement list.  (In the
source the handling is interleaved with the walk; the handling does not
influence the walk, so collecting first is the same computation.) -/
def populateReplacements (plugins : Plugins) (root : XNode) :
    PortMap × List Replacement :=
  (collectProcs root).foldl (handleProcessor plugins) (⟨[], []⟩, [])

/-- Comparison by range start, the sort key of Patcher::run. -/
def repLe (a b : Replacement) : Prop :=
  a.location.start ≤ b.location.start

instance : DecidableRel repLe := fun x y => Nat.decLe x.location.start y.location.start

instance : IsTotal Replacement repLe := ⟨fun x y => Nat.le_total x.location.start y.location.start⟩

instance : IsTrans Replacement repLe := ⟨fun _ _ _ => Nat.le_trans⟩

/-- Models the sort_unstable_by_key call of Patcher::run.  The Rust sort is
unstable, so any sort by range start is a faithful model; insertion sort is
used here. -/
def sortByStart (l : List Replacement) : List Replacement :=
  List.insertionSort repLe l

/-- Models the Display impl for PatchedSession from cursor position pos:
a replacement that starts before the cursor is dropped (diagnostic only);
otherwise the input is copied verbatim up to the replacement start, the
decimal digits of the new value are written, and the cursor advances to the
end of the replacement range; the tail of the input follows the last
replacement. -/
def renderFrom (xml : Text) (pos : Nat) : List Replacement → Text
  | [] => xml.drop pos
  | r :: rest =>
    if r.location.start < pos then renderFrom xml pos rest
    else ((xml.take r.location.start).drop pos)
      ++ decDigits r.value ++ renderFrom xml r.location.stop rest

/-- Rendering of a PatchedSession (cursor initialized to zero). -/
def render (xml : Text) (reps : List Replacement) : Text := renderFrom xml 0 reps

/-- The sorted replacement list of Patcher::run for a document. -/
def patchReplacements (plugins : Plugins) (root : XNode) : List Replacement :=
  sortByStart (populateReplacements plugins root).2

/-- The whole patch operation on a document: the sorted replacements of the
run applied to the input text.  The patch function of the source also parses
the XML (external roxmltree) and opens the lilv world; both appear here as
the inputs root and plugins. -/
def patchText (plugins : Plugins) (root : XNode) (xml : Text) : Text :=
  render xml (patchReplacements plugins root)

/-- Spec side rendering: the input text with each edited range replaced by
the decimal digits of its new value, every other byte copied verbatim.
Stated from the wording of the spec for comparison with renderFrom. -/
def splice (xml : Text) (pos : Nat) : List Replacement → Text
  | [] => xml.drop pos
  | r :: rest =>
    ((xml.take r.location.start).drop pos)
      ++ decDigits r.value ++ splice xml r.location.stop rest

/-- chainFrom pos reps holds when each replacement starts at or after the
cursor position its predecessor leaves behind: the shape of a sorted list of
pairwise disjoint edits, under which all of them are applied. -/
def chainFrom (pos : Nat) : List Replacement → Bool
  | [] => true
  | r :: rest => decide (pos ≤ r.location.start) && chainFrom r.location.stop rest

/-- The replacements the renderer actually applies: those not dropped by the
cursor check of the Display impl. -/
def appliedFrom (pos : Nat) : List Replacement → List Replacement
  | [] => []
  | r :: rest =>
    if r.location.start < pos then appliedFrom pos rest
    else r :: appliedFrom r.location.stop rest

/-- Every occurrence byte range the extractor records, over all parsed
blocks of the document, in document order. -/
def occRanges (root : XNode) : List ByteRange :=
  ((collectProcs root).map fun p => p.parameters.map (·.2)).flatten

/-- Two byte ranges that do not overlap. -/
def BRDisj (a b : ByteRange) : Prop :=
  a.stop ≤ b.start ∨ b.stop ≤ a.start

/-- A digit list with no leading zero: the single zero digit, or a list not
beginning with the zero digit. -/
def noLeadZero (l : List Char) : Prop :=
  l = ['0'] ∨ l.head? ≠ some '0'

mutual

/-- True when no node of the tree carries the reference element tag. -/
def noProcTag : XNode → Bool
  | .mk tag _ children => !(decide (tag = "Processor")) && noProcTagList children

/-- noProcTag over a sibling list. -/
def noProcTagList : List XNode → Bool
  | [] => true
  | n :: rest => noProcTag n && noProcTagList rest

end

/-- Along the parameter stream of one block, each resolved index equals the
index already present in the text (threading the PortMap exactly as
handle_processor does). -/
def editFreeBlock (plugin : Plugin) (uri : String) (pm : PortMap) :
    List Parameter → Bool
  | [] => true
  | param :: rest =>
    let r := pm.resolve plugin ⟨uri, param.symbol⟩
    decide (r.1 = param.old_index) && editFreeBlock plugin uri r.2 rest

/-- Every block of the run is edit free under the threaded PortMap. -/
def editFreeRun (plugins : Plugins) (pm : PortMap) : List Processor → Bool
  | [] => true
  | proc :: rest =>
    match plugins.get proc.uri with
    | none => editFreeRun plugins pm rest
    | some plugin =>
      editFreeBlock plugin proc.uri pm proc.parameterStream
        && editFreeRun plugins (handleProcessor plugins (pm, []) proc).1 rest

/-- A sequence of resolver calls, each on one (plugin, key) pair, threading
the PortMap: the shape of the calls handle_processor performs in a run. -/
def runCalls : PortMap → List (Plugin × PortId) → PortMap
  | pm, [] => pm
  | pm, c :: rest => runCalls (pm.resolve c.1 c.2).2 rest

/-- A sequence of resolver calls where the plugin passed with each key is
the one for its uri: handle_processor always passes the plugin that
Plugins::get returned for the uri of the block, and the key it builds
carries that same uri. -/
def runKeys (P : String → Plugin) : PortMap → List PortId → PortMap
  | pm, [] => pm
  | pm, id :: rest => runKeys P (pm.resolve (P id.uri) id).2 rest

/-- One occurrence carrying element inside a reference block: an
AutomationList occurrence (index only) or a Controllable occurrence (index
plus symbol), with the byte range of its index text. -/
inductive Item where
  | auto (index : Nat) (loc : ByteRange)
  | ctrl (index : Nat) (symbol : String) (loc : ByteRange)
deriving DecidableEq

/-- Index value of an item. -/
def Item.index : Item → Nat
  | .auto i _ => i
  | .ctrl i _ _ => i

/-- The same item with its index text replaced by a new value. -/
def Item.withIndex : Item → Nat → Item
  | .auto _ r, v => .auto v r
  | .ctrl _ s r, v => .ctrl v s r

/-- Fold one item into a Processor under construction: exactly the updates
the two occurrence handlers of Processor::parse perform. -/
def buildStep (p : Processor) : Item → Processor
  | .auto i r => { p with parameters := p.parameters ++ [(i, r)] }
  | .ctrl i s r =>
    { p with
        symbols := (i, s) :: p.symbols,
        parameters := p.parameters ++ [(i, r)] }

/-- The Processor that parsing a block with the given occurrence items in
document order produces. -/
def buildProcessor (uri : String) (items : List Item) : Processor :=
  items.foldl buildStep ⟨uri, [], []⟩

/-- The item that Processor::on_automation_list records for a node, when all
of its guards pass. -/
def autoItem (n : XNode) : Option Item :=
  match n.attrNode "automation-id" with
  | none => none
  | some attr =>
    match stripParamPre attr.value with
    | none => none
    | some index =>
      match ParameterIndex.fromStr index with
      | none => none
      | some parsed => some (.auto parsed ⟨attr.valueStart + 10, attr.valueEnd⟩)

/-- The item that Processor::on_controllable records for a node, when all of
its guards pass. -/
def ctrlItem (n : XNode) : Option Item :=
  match n.attrNode "parameter" with
  | none => none
  | some indexAttr =>
    match ParameterIndex.fromStr indexAttr.value with
    | none => none
    | some parsed =>
      match n.attr "symbol" with
      | none => none
      | some symbol => some (.ctrl parsed symbol ⟨indexAttr.valueStart, indexAttr.valueEnd⟩)

mutual

/-- The occurrence items the descendant walk of Processor::parse records for
one node, in document order. -/
def itemsOfNode : XNode → List Item
  | .mk tag attrs children =>
    if tag = "AutomationList" then (autoItem (.mk tag attrs children)).toList
    else if tag = "Controllable" then (ctrlItem (.mk tag attrs children)).toList
    else itemsOfList children

/-- itemsOfNode over a sibling list. -/
def itemsOfList : List XNode → List Item
  | [] => []
  | n :: rest => itemsOfNode n ++ itemsOfList rest

end

/-- The effect of one patch run on the occurrence items of one block, with
syms the index to symbol map of the block: every occurrence whose index has
a symbol in the map receives the resolved index as its new textual value
(that is what the edit writes at its range when the value differs, and what
the text already holds when it does not); occurrences without a symbol are
left untouched.  The PortMap is threaded exactly as handle_processor threads
it.  Byte ranges are carried along unchanged: the rendered output shifts
them, but no later decision of the engine reads them. -/
def patchItems (plugin : Plugin) (uri : String) (syms : List (Nat × String)) :
    PortMap → List Item → PortMap × List Item
  | pm, [] => (pm, [])
  | pm, it :: rest =>
    match mapGet syms it.index with
    | none =>
      let r := patchItems plugin uri syms pm rest
      (r.1, it :: r.2)
    | some s =>
      let rv := pm.resolve plugin ⟨uri, s⟩
      let r := patchItems plugin uri syms rv.2 rest
      (r.1, it.withIndex rv.1 :: r.2)

/-- The effect of one patch run on a whole document given as its blocks
(uri plus occurrence items): blocks whose plugin is not found are skipped
and untouched, the others have their occurrence values updated, with the
PortMap threaded across blocks as Patcher::run does. -/
def patchBlocks (plugins : Plugins) :
    PortMap → List (String × List Item) → PortMap × List (String × List Item)
  | pm, [] => (pm, [])
  | pm, (uri, items) :: rest =>
    match plugins.get uri with
    | none =>
      let r := patchBlocks plugins pm rest
      (r.1, (uri, items) :: r.2)
    | some plugin =>
      let b := patchItems plugin uri (buildProcessor uri items).symbols pm items
      let r := patchBlocks plugins b.1 rest
      (r.1, (uri, b.2) :: r.2)

mutual

/-- Checks that a node tree is consistent with a source text: every
attribute value occupies exactly its recorded byte range. -/
def treeMatches (xml : Text) : XNode → Bool
  | .mk _ attrs children =>
    attrs.all (fun a => decide ((xml.take a.valueEnd).drop a.valueStart = a.value.data))
      && treeMatchesList xml children

/-- treeMatches over a sibling list. -/
def treeMatchesList (xml : Text) : List XNode → Bool
  | [] => true
  | n :: rest => treeMatches xml n && treeMatchesList xml rest

end

/-- A uri consisting of a single NUL byte. -/
def nulUri : String := String.mk [Char.ofNat 0]

/-- A plugin database that resolves every uri, and a block with a resolvable
occurrence, so that only the NUL check can be responsible for the skip. -/
def c6Plugins : Plugins := ⟨fun _ => some ⟨8, fun _ => some 3⟩⟩

/-- Reference block under the NUL uri with one resolvable occurrence. -/
def c6Proc : Processor := ⟨nulUri, [(2, "gain")], [(2, ⟨5, 6⟩)]⟩

/-- A block state, and nodes whose index text 12x contains a non digit. -/
def c5Proc : Processor := ⟨"urn:x", [(1, "gain")], [(1, ⟨3, 4⟩)]⟩

/-- Automation node whose index suffix contains a non digit character. -/
def c5AutoNode : XNode := .mk "AutomationList" [⟨"automation-id", "parameter-12x", 20, 33⟩] []

/-- Controllable node whose index text contains a non digit character. -/
def c5CtrlNode : XNode :=
  .mk "Controllable" [⟨"parameter", "12x", 50, 53⟩, ⟨"symbol", "gain", 62, 66⟩] []

/-- Character encoding of one decimal digit. -/
def digitChr (d : Nat) : Char := Char.ofNat (48 + d)

/-- Witness input text for claim C1. -/
def c1Xml : Text := "ab 12 cd 7 e".data

/-- Witness edits for claim C1: two disjoint sorted edits. -/
def c1Reps : List Replacement := [⟨⟨3, 5⟩, 105⟩, ⟨⟨9, 10⟩, 0⟩]

/-- A valid reference element: parses successfully and yields an edit. -/
def c10Inner : XNode :=
  .mk "Processor" [⟨"type", "lv2", 5, 8⟩, ⟨"unique-id", "urn:x", 15, 20⟩]
    [.mk "Controllable" [⟨"parameter", "2", 30, 31⟩, ⟨"symbol", "gain", 40, 44⟩] []]

/-- A reference element missing its type attribute, with the valid element
nested beneath it. -/
def c10OuterAttrs : List XAttr := [⟨"unique-id", "urn:y", 60, 65⟩]

/-- Provider for the C10 witness: resolves gain to a differing index. -/
def c10Plugins : Plugins :=
  ⟨fun u => if u = "urn:x" then some ⟨8, fun s => if s = "gain" then some 5 else none⟩ else none⟩

/-- The loop body of Patcher::handle_processor: resolve a parameter and
record a replacement exactly when the resolved index differs. -/
def stepParam (plugin : Plugin) (uri : String) (st : PortMap × List Replacement)
    (param : Parameter) : PortMap × List Replacement :=
  let r := st.1.resolve plugin ⟨uri, param.symbol⟩
  if r.1 = param.old_index then (r.2, st.2)
  else (r.2, st.2 ++ [⟨param.location, r.1⟩])

/-- Tree with no reference element tag for the C7 witness. -/
def c7NoProcTree : XNode := .mk "" [] [.mk "S" [] [.mk "Route" [] []]]

/-- Tree whose single block is already correct for the C7 witness: the
provider resolves gain to 2, and the occurrence already reads 2. -/
def c7GoodTree : XNode :=
  .mk "" [] [.mk "Processor" [⟨"type", "lv2", 20, 23⟩, ⟨"unique-id", "urn:x", 36, 41⟩]
    [.mk "Controllable" [⟨"parameter", "2", 113, 114⟩, ⟨"symbol", "gain", 124, 128⟩] []]]

/-- Provider for the C7 witness. -/
def c7Plugins : Plugins :=
  ⟨fun u => if u = "urn:x" then some ⟨8, fun s => if s = "gain" then some 2 else none⟩ else none⟩

/-- Block for the third conjunct of the C7 witness: present index 7 differs
from the resolved index 2, so a replacement is produced and must point back
at the occurrence. -/
def c7DiffProc : Processor := ⟨"urn:x", [(7, "gain")], [(7, ⟨50, 51⟩)]⟩

/-- Block for the C8 witness: occurrence index 2 has symbol g, occurrence
index 7 has none. -/
def c8Proc : Processor := ⟨"u", [(2, "g")], [(2, ⟨10, 11⟩), (7, ⟨20, 21⟩)]⟩

instance : DecidableRel BRDisj := fun a b => by
  unfold BRDisj
  infer_instance

/-- Tree for the C9 witness: two disjoint nonempty occurrence ranges. -/
def c9Tree : XNode :=
  .mk "" [] [.mk "Processor" [⟨"type", "lv2", 20, 23⟩, ⟨"unique-id", "urn:x", 36, 41⟩]
    [.mk "AutomationList" [⟨"automation-id", "parameter-2", 74, 85⟩] [],
     .mk "Controllable" [⟨"parameter", "2", 113, 114⟩, ⟨"symbol", "gain", 124, 128⟩] []]]

/-- Provider for the C9 witness: resolves gain to 5, so both occurrences
produce edits. -/
def c9Plugins : Plugins :=
  ⟨fun u => if u = "urn:x" then some ⟨8, fun s => if s = "gain" then some 5 else none⟩ else none⟩

/-- The memoized resolutions of a PortMap under one uri whose symbol the
provider of that uri does not resolve: the fallback assigned entries. -/
def fbEntries (P : String → Plugin) (pm : PortMap) (uri : String) : List (PortId × Nat) :=
  pm.index.filter fun e =>
    decide (e.1.uri = uri) && decide ((P uri).port_index e.1.symbol = none)

/-- Run invariant of the fallback machinery for claim C4, for a run whose
resolver calls pass the plugin P uri with every key under uri: cache keys
are never overwritten; a uri with no counter has no fallback entries; and a
uri with counter cv has exactly the fallback values
numPorts, numPorts + 1, ..., cv - 1, newest first. -/
def FbInv (P : String → Plugin) (pm : PortMap) : Prop :=
  (pm.index.map (·.1)).Nodup
    ∧ ∀ uri : String,
        (mapGet pm.count uri = none → fbEntries P pm uri = [])
          ∧ ∀ cv, mapGet pm.count uri = some cv →
              cv = (P uri).numPorts + (fbEntries P pm uri).length
                ∧ (fbEntries P pm uri).map (·.2)
                    = (List.range' (P uri).numPorts (fbEntries P pm uri).length).reverse

/-- Plugin for the C4 counterexample: the provider reports the largest u32
port count and resolves no symbol. -/
def c4CexPlugin : Plugin := ⟨2 ^ 32 - 1, fun _ => none⟩

/-- Plugin assignment for the C4 witness. -/
def c4WPlugins : String → Plugin :=
  fun u => if u = "u" then ⟨10, fun _ => none⟩ else ⟨0, fun _ => none⟩

/-- A PortMap whose memoized entries agree with the provider wherever the
provider resolves: the state a run maintains as long as no fallback entry is
created. -/
def Consistent (plugins : Plugins) (pm : PortMap) : Prop :=
  ∀ (u s : String) (v : Nat) (plugin : Plugin),
    plugins.get u = some plugin → mapGet pm.index ⟨u, s⟩ = some v →
    plugin.port_index s = some v

/-- The symbol of the last Controllable item with the given index, folded
left with an explicit accumulator: the value HashMap::insert leaves in the
index to symbol map for that index. -/
def lastCtrlSym (i : Nat) : List Item → Option String → Option String
  | [], acc => acc
  | it :: rest, acc =>
    match it with
    | .ctrl j s _ => lastCtrlSym i rest (if j = i then some s else acc)
    | .auto _ _ => lastCtrlSym i rest acc

/-- Byte range of an item. -/
def Item.loc : Item → ByteRange
  | .auto _ r => r
  | .ctrl _ _ r => r

/-- Decidable hypothesis of the amended claim C2: for every block whose
plugin the database finds, the provider resolves the symbol of every
Controllable occurrence (no fallback assignment can occur). -/
def blocksAllFound (plugins : Plugins) (blocks : List (String × List Item)) : Bool :=
  blocks.all fun b =>
    match plugins.get b.1 with
    | none => true
    | some plugin => b.2.all fun it =>
        match it with
        | .auto _ _ => true
        | .ctrl _ s _ => (plugin.port_index s).isSome

/-- First run input text for the C2 counterexample. -/
def cexAXml : Text := "<S><Processor type=\"lv2\" unique-id=\"x\"><AutomationList automation-id=\"parameter-11\"/><Controllable parameter=\"0\" symbol=\"a\"/><Controllable parameter=\"1\" symbol=\"b\"/></Processor></S>".data

/-- Parse tree of the first run input, with the exact value byte ranges. -/
def cexATree : XNode :=
  .mk "" [] [
  .mk "S" [] [
    .mk "Processor" [⟨"type", "lv2", 20, 23⟩, ⟨"unique-id", "x", 36, 37⟩] [
      .mk "AutomationList" [⟨"automation-id", "parameter-11", 70, 82⟩] [],
      .mk "Controllable" [⟨"parameter", "0", 110, 111⟩, ⟨"symbol", "a", 121, 122⟩] [],
      .mk "Controllable" [⟨"parameter", "1", 150, 151⟩, ⟨"symbol", "b", 161, 162⟩] []]]]

/-- Output of the first run, input of the second. -/
def cexBXml : Text := "<S><Processor type=\"lv2\" unique-id=\"x\"><AutomationList automation-id=\"parameter-11\"/><Controllable parameter=\"10\" symbol=\"a\"/><Controllable parameter=\"11\" symbol=\"b\"/></Processor></S>".data

/-- Parse tree of the second run input, with the shifted value ranges. -/
def cexBTree : XNode :=
  .mk "" [] [
  .mk "S" [] [
    .mk "Processor" [⟨"type", "lv2", 20, 23⟩, ⟨"unique-id", "x", 36, 37⟩] [
      .mk "AutomationList" [⟨"automation-id", "parameter-11", 70, 82⟩] [],
      .mk "Controllable" [⟨"parameter", "10", 110, 112⟩, ⟨"symbol", "a", 122, 123⟩] [],
      .mk "Controllable" [⟨"parameter", "11", 151, 153⟩, ⟨"symbol", "b", 163, 164⟩] []]]]

/-- Provider for the C2 counterexample: the plugin for uri x reports ten
ports and resolves no symbol, so both symbols are fallback assigned. -/
def cexPlugins : Plugins := ⟨fun u => if u = "x" then some ⟨10, fun _ => none⟩ else none⟩

/-- Blocks for the C2 witness: one stale index holder occurrence and one
Controllable occurrence whose symbol the provider resolves. -/
def c2WBlocks : List (String × List Item) :=
  [("x", [.auto 7 ⟨70, 71⟩, .ctrl 3 "gain" ⟨110, 111⟩])]

/-- Provider for the C2 witness: gain resolves to port 7. -/
def c2WPlugins : Plugins :=
  ⟨fun u => if u = "x" then some ⟨8, fun s => if s = "gain" then some 7 else none⟩ else none⟩

theorem mapGet_cons_self {κ α : Type} [DecidableEq κ] (m : List (κ × α)) (k : κ) (v : α) :
    mapGet ((k, v) :: m) k = some v := by
  simp [mapGet, List.find?]

theorem mapGet_cons_ne {κ α : Type} [DecidableEq κ] (m : List (κ × α)) (k k' : κ) (v : α)
    (h : k' ≠ k) : mapGet ((k', v) :: m) k = mapGet m k := by
  simp [mapGet, List.find?, h]

theorem mapGet_some_mem {κ α : Type} [DecidableEq κ] {m : List (κ × α)} {k : κ} {v : α}
    (h : mapGet m k = some v) : (k, v) ∈ m := by
  induction m with
  | nil => simp [mapGet] at h
  | cons e rest ih =>
    by_cases he : e.1 = k
    · rw [show e = (e.1, e.2) from rfl, he] at h ⊢
      rw [mapGet_cons_self] at h
      cases h
      exact List.mem_cons_self _ _
    · rw [show e = (e.1, e.2) from rfl] at h ⊢
      rw [mapGet_cons_ne _ _ _ _ he] at h
      exact List.mem_cons_of_mem _ (ih h)

theorem mapGet_none_not_mem {κ α : Type} [DecidableEq κ] {m : List (κ × α)} {k : κ}
    (h : mapGet m k = none) : ∀ v, (k, v) ∉ m := by
  intro v hm
  induction m with
  | nil => simp at hm
  | cons e rest ih =>
    rcases List.mem_cons.1 hm with he | he
    · subst he
      rw [mapGet_cons_self] at h
      cases h
    · by_cases h1 : e.1 = k
      · rw [show e = (e.1, e.2) from rfl, h1, mapGet_cons_self] at h
        cases h
      · rw [show e = (e.1, e.2) from rfl, mapGet_cons_ne _ _ _ _ h1] at h
        exact ih h he

-- PortMap.resolve lemmas

theorem resolve_lookup_self (pm : PortMap) (plugin : Plugin) (id : PortId) :
    mapGet ((pm.resolve plugin id).2).index id = some (pm.resolve plugin id).1 := by
  unfold PortMap.resolve
  cases h : mapGet pm.index id with
  | some v => simp [h]
  | none =>
    cases hp : plugin.port_index id.symbol with
    | some i => simp [h, hp, mapGet_cons_self]
    | none => simp [h, hp, mapGet_cons_self]

theorem resolve_of_lookup {pm : PortMap} {id : PortId} {v : Nat} (plugin : Plugin)
    (h : mapGet pm.index id = some v) : pm.resolve plugin id = (v, pm) := by
  unfold PortMap.resolve
  simp [h]

theorem resolve_preserves {pm : PortMap} {id : PortId} {v : Nat}
    (plugin : Plugin) (id' : PortId)
    (h : mapGet pm.index id = some v) :
    mapGet ((pm.resolve plugin id').2).index id = some v := by
  unfold PortMap.resolve
  by_cases he : id' = id
  · subst he
    simp [h]
  · cases h1 : mapGet pm.index id' with
    | some w => simpa [h1]
    | none =>
      cases hp : plugin.port_index id'.symbol with
      | some i => simpa [h1, hp, mapGet_cons_ne _ _ _ _ he]
      | none => simpa [h1, hp, mapGet_cons_ne _ _ _ _ he]

theorem runCalls_preserves {pm : PortMap} {id : PortId} {v : Nat}
    (calls : List (Plugin × PortId))
    (h : mapGet pm.index id = some v) :
    mapGet (runCalls pm calls).index id = some v := by
  induction calls generalizing pm with
  | nil => simpa [runCalls] using h
  | cons c rest ih => exact ih (resolve_preserves c.1 c.2 h)

/-- Claim C3: within one run, once a (uri, symbol) key has been resolved,
every later resolution of the same key — through any further sequence of
resolver calls, with any plugin handle — returns the index of the first
resolution. -/
theorem c3_resolution_stable (pm : PortMap) (plugin : Plugin) (id : PortId)
    (calls : List (Plugin × PortId)) (plugin' : Plugin) :
    ((runCalls (pm.resolve plugin id).2 calls).resolve plugin' id).1
      = (pm.resolve plugin id).1 := by
  have h := runCalls_preserves calls (resolve_lookup_self pm plugin id)
  rw [resolve_of_lookup plugin' h]

/-- Claim C6: when the plugin for the uri of a block cannot be found —
because the database lookup fails, or because the uri contains an embedded
NUL, which the CString boundary rejects with a diagnostic — the whole block
is skipped: no key is resolved (the PortMap is unchanged) and no replacement
is generated (the replacement list is unchanged). -/
theorem c6_plugin_not_found_skips_block (plugins : Plugins)
    (st : PortMap × List Replacement) (proc : Processor)
    (h : plugins.findPlugin proc.uri = none ∨ containsNul proc.uri = true) :
    handleProcessor plugins st proc = st := by
  have hget : plugins.get proc.uri = none := by
    unfold Plugins.get
    rcases h with h | h
    · simp [h]
    · simp [h]
  unfold handleProcessor
  rw [hget]

/-- Witness for claim C6 at a concrete input: the uri contains a NUL, and
the block is skipped even though the database would resolve the uri and the
occurrence would otherwise produce an edit. -/
theorem c6_witness :
    containsNul nulUri = true
      ∧ handleProcessor c6Plugins (⟨[], []⟩, []) c6Proc = (⟨[], []⟩, []) :=
  ⟨by decide, c6_plugin_not_found_skips_block c6Plugins (⟨[], []⟩, []) c6Proc
    (Or.inr (by decide))⟩

/-- Counterexample to claim C5 as stated: the string 4294967296 consists
only of ASCII digits, yet ParameterIndex parsing fails on it, because the
underlying u32 parse overflows (the value is 2 ^ 32). -/
theorem c5_counterexample :
    ("4294967296".data.all Char.isDigit = true)
      ∧ ParameterIndex.fromStr "4294967296" = none := by
  constructor
  · decide
  · decide

/-- Claim C5 as amended: ParameterIndex parsing succeeds exactly on the
nonempty all ASCII digit strings whose value fits in a u32, yielding that
numeric value; any string with a non digit character fails; and an
occurrence whose index text fails to parse is discarded by the two
occurrence handlers, leaving the block state — hence that text — untouched. -/
theorem c5_strict_digit_parse (s : String) :
    ((∃ v, ParameterIndex.fromStr s = some v)
        ↔ s.data ≠ [] ∧ s.data.all Char.isDigit = true ∧ digitsToNat s.data < 2 ^ 32)
      ∧ (∀ v, ParameterIndex.fromStr s = some v → v = digitsToNat s.data)
      ∧ (s.data.all Char.isDigit = false → ParameterIndex.fromStr s = none)
      ∧ (∀ (p : Processor) (n : XNode) (attr : XAttr),
          n.attrNode "automation-id" = some attr → stripParamPre attr.value = some s →
          ParameterIndex.fromStr s = none → p.onAutomationList n = p)
      ∧ (∀ (p : Processor) (n : XNode) (attr : XAttr),
          n.attrNode "parameter" = some attr → attr.value = s →
          ParameterIndex.fromStr s = none → p.onControllable n = p) := by
  refine ⟨?_, ?_, ?_, ?_, ?_⟩
  · unfold ParameterIndex.fromStr parseU32Digits
    constructor
    · rintro ⟨v, hv⟩
      split_ifs at hv with hd he hb
      exact ⟨he, hd, hb⟩
    · rintro ⟨he, hd, hb⟩
      refine ⟨digitsToNat s.data, ?_⟩
      rw [if_pos hd, if_neg he, if_pos hb]
  · intro v hv
    unfold ParameterIndex.fromStr parseU32Digits at hv
    split_ifs at hv with hd he hb
    injection hv with h
    exact h.symm
  · intro hd
    unfold ParameterIndex.fromStr
    simp [hd]
  · intro p n attr hattr hstrip hparse
    simp [Processor.onAutomationList, hattr, hstrip, hparse]
  · intro p n attr hattr hval hparse
    simp [Processor.onControllable, hattr, hval, hparse]

/-- Witness for the amended claim C5 at concrete inputs: the string 12x
fails to parse, and both occurrence shapes carrying it are discarded with
the block state untouched. -/
theorem c5_witness :
    ParameterIndex.fromStr (String.mk ['1', '2', 'x']) = none
      ∧ c5Proc.onAutomationList c5AutoNode = c5Proc
      ∧ c5Proc.onControllable c5CtrlNode = c5Proc := by
  have h := c5_strict_digit_parse (String.mk ['1', '2', 'x'])
  refine ⟨h.2.2.1 (by decide), ?_, ?_⟩
  · exact h.2.2.2.1 c5Proc c5AutoNode ⟨"automation-id", "parameter-12x", 20, 33⟩
      (by decide) (by decide) (h.2.2.1 (by decide))
  · exact h.2.2.2.2 c5Proc c5CtrlNode ⟨"parameter", "12x", 50, 53⟩
      (by decide) (by decide) (h.2.2.1 (by decide))

-- Decimal digit lemmas

theorem decDigitsCore_eq (fuel : Nat) :
    ∀ n acc, n ≠ 0 → n < 10 ^ fuel →
      decDigitsCore fuel n acc = (Nat.digits 10 n).reverse.map digitChr ++ acc := by
  induction fuel with
  | zero =>
    intro n acc hn hlt
    simp at hlt
    omega
  | succ fuel ih =>
    intro n acc hn hlt
    rw [Nat.digits_def' (by norm_num : 1 < 10) (Nat.pos_of_ne_zero hn)]
    by_cases hsmall : n < 10
    · have hdiv : n / 10 = 0 := Nat.div_eq_of_lt hsmall
      rw [decDigitsCore, if_pos hsmall, hdiv]
      simp [digitChr]
    · have hdiv0 : n / 10 ≠ 0 := by
        omega
      have hdivlt : n / 10 < 10 ^ fuel := by
        apply Nat.div_lt_of_lt_mul
        calc n < 10 ^ (fuel + 1) := hlt
        _ = 10 * 10 ^ fuel := by ring
      rw [decDigitsCore, if_neg hsmall, ih (n / 10) _ hdiv0 hdivlt]
      simp [digitChr]

theorem decDigits_eq {n : Nat} (hn : n ≠ 0) :
    decDigits n = (Nat.digits 10 n).reverse.map digitChr := by
  have h1 : n < 10 ^ (n + 1) :=
    lt_of_lt_of_le (Nat.lt_pow_self (by norm_num) n)
      (Nat.pow_le_pow_right (by norm_num) (Nat.le_succ n))
  rw [decDigits, decDigitsCore_eq (n + 1) n [] hn h1, List.append_nil]

theorem digitChr_isDigit {d : Nat} (hd : d < 10) : (digitChr d).isDigit = true := by
  interval_cases d <;> decide

theorem digitChr_ne_zero_chr {d : Nat} (hd : d < 10) (h0 : d ≠ 0) : digitChr d ≠ '0' := by
  interval_cases d <;> first | (exact absurd rfl h0) | decide

theorem digitChr_toNat {d : Nat} (hd : d < 10) : (digitChr d).toNat - 48 = d := by
  interval_cases d <;> decide

theorem decDigits_all_digit (n : Nat) : ∀ c ∈ decDigits n, c.isDigit = true := by
  by_cases hn : n = 0
  · subst hn
    intro c hc
    rw [show decDigits 0 = ['0'] from rfl, List.mem_singleton] at hc
    subst hc
    decide
  · rw [decDigits_eq hn]
    intro c hc
    rw [List.mem_map] at hc
    obtain ⟨d, hd, rfl⟩ := hc
    rw [List.mem_reverse] at hd
    exact digitChr_isDigit (Nat.digits_lt_base (by norm_num) hd)

theorem decDigits_noLeadZero (n : Nat) : noLeadZero (decDigits n) := by
  by_cases hn : n = 0
  · subst hn
    exact Or.inl rfl
  · right
    rw [decDigits_eq hn]
    have hne : Nat.digits 10 n ≠ [] := Nat.digits_ne_nil_iff_ne_zero.2 hn
    rw [List.head?_map, List.head?_reverse]
    rw [List.getLast?_eq_getLast _ hne]
    intro h
    rw [Option.map_some'] at h
    injection h with h
    have hlast := Nat.getLast_digit_ne_zero 10 hn
    have hlt : (Nat.digits 10 n).getLast hne < 10 :=
      Nat.digits_lt_base (by norm_num) (List.getLast_mem hne)
    exact digitChr_ne_zero_chr hlt hlast h

theorem digitsToNat_append_digit (xs : List Char) (c : Char) :
    digitsToNat (xs ++ [c]) = digitsToNat xs * 10 + (c.toNat - 48) := by
  simp [digitsToNat, List.foldl_append]

theorem digitsToNat_of_digits (L : List Nat) (h : ∀ d ∈ L, d < 10) :
    digitsToNat (L.reverse.map digitChr) = Nat.ofDigits 10 L := by
  induction L with
  | nil => simp [digitsToNat, Nat.ofDigits_nil]
  | cons d L ih =>
    rw [List.reverse_cons, List.map_append, List.map_cons, List.map_nil,
      digitsToNat_append_digit, ih (fun x hx => h x (List.mem_cons_of_mem _ hx)),
      digitChr_toNat (h d (List.mem_cons_self _ _)), Nat.ofDigits_cons]
    ring

/-- Formatting a value and reading the digits back yields the value. -/
theorem digitsToNat_decDigits (n : Nat) : digitsToNat (decDigits n) = n := by
  by_cases hn : n = 0
  · subst hn
    decide
  · rw [decDigits_eq hn,
      digitsToNat_of_digits _ (fun d hd => Nat.digits_lt_base (by norm_num) hd),
      Nat.ofDigits_digits]

-- Renderer refinement

theorem renderFrom_eq_splice (xml : Text) (reps : List Replacement) :
    ∀ pos, chainFrom pos reps = true → renderFrom xml pos reps = splice xml pos reps := by
  induction reps with
  | nil => intro pos _ ; rfl
  | cons r rest ih =>
    intro pos hc
    rw [chainFrom, Bool.and_eq_true, decide_eq_true_eq] at hc
    rw [renderFrom, splice, if_neg (Nat.not_lt.2 hc.1), ih _ hc.2]

/-- Claim C1: for a sorted list of pairwise disjoint (hence all applied)
edits, the rendered output is exactly the spec side splice — the input text
copied verbatim outside the edited ranges, with the decimal digits of the
new value at each edited range — and every value is written as decimal
digits with no leading zeros and variable width. -/
theorem c1_render_is_splice (xml : Text) (reps : List Replacement)
    (h : chainFrom 0 reps = true) :
    render xml reps = splice xml 0 reps
      ∧ ∀ r ∈ reps,
          (∀ c ∈ decDigits r.value, c.isDigit = true) ∧ noLeadZero (decDigits r.value) :=
  ⟨renderFrom_eq_splice xml reps 0 h,
    fun r _ => ⟨decDigits_all_digit r.value, decDigits_noLeadZero r.value⟩⟩

/-- Witness for claim C1 at a concrete input: the hypothesis holds and the
rendered output is the splice, which spells the new values 105 and 0 at the
two ranges and copies everything else. -/
theorem c1_witness :
    chainFrom 0 c1Reps = true
      ∧ (render c1Xml c1Reps = splice c1Xml 0 c1Reps
          ∧ ∀ r ∈ c1Reps,
              (∀ c ∈ decDigits r.value, c.isDigit = true) ∧ noLeadZero (decDigits r.value))
      ∧ render c1Xml c1Reps = "ab 105 cd 0 e".data :=
  ⟨by decide, c1_render_is_splice c1Xml c1Reps (by decide), by decide⟩

-- Shared lemmas about an empty run

theorem render_nil (xml : Text) : render xml [] = xml := by
  simp [render, renderFrom]

theorem patchText_of_collect_nil (plugins : Plugins) (root : XNode) (xml : Text)
    (h : collectProcs root = []) : patchText plugins root xml = xml := by
  unfold patchText patchReplacements populateReplacements
  rw [h]
  simp only [List.foldl_nil]
  rw [show sortByStart [] = [] from rfl]
  exact render_nil xml

-- Claim C10

theorem parse_ignores_children_for_rejection (attrs : List XAttr)
    (children : List XNode)
    (h : Processor.parse (.mk "Processor" attrs []) = none) :
    Processor.parse (.mk "Processor" attrs children) = none := by
  have e : ∀ (c : List XNode) (nm : String),
      (XNode.mk "Processor" attrs c).attr nm
        = (attrs.find? fun a => decide (a.name = nm)).map XAttr.value := fun _ _ => rfl
  unfold Processor.parse at h ⊢
  rw [e, e] at h ⊢
  by_cases ht : ¬(attrs.find? fun a => decide (a.name = "type")).map XAttr.value = some "lv2"
  · rw [if_pos ht]
  · rw [if_neg ht] at h ⊢
    cases hu : (attrs.find? fun a => decide (a.name = "unique-id")).map XAttr.value with
    | none => rfl
    | some uri =>
      rw [hu] at h
      exact absurd h (by simp)

/-- Claim C10: the outer traversal decides by the tag alone; an element
tagged as a reference element whose parse is rejected (type attribute absent
or not the literal lv2, or identity attribute missing — conditions on the
attributes only, stated here on the element with its children removed)
contributes no blocks at all, whatever its subtree contains, and therefore
the patch output over that element equals the input text. -/
theorem c10_rejected_subtree_never_discovered (attrs : List XAttr)
    (children : List XNode)
    (h : Processor.parse (.mk "Processor" attrs []) = none) :
    collectProcs (.mk "Processor" attrs children) = []
      ∧ ∀ (plugins : Plugins) (xml : Text),
          patchText plugins (.mk "Processor" attrs children) xml = xml := by
  have hc : collectProcs (.mk "Processor" attrs children) = [] := by
    unfold collectProcs
    rw [if_pos rfl, parse_ignores_children_for_rejection attrs children h]
  exact ⟨hc, fun plugins xml => patchText_of_collect_nil plugins _ xml hc⟩

/-- Witness for claim C10 at a concrete input: the nested element alone
would produce an edit, yet under the rejected outer element nothing is
discovered and the text is returned unchanged. -/
theorem c10_witness :
    collectProcs c10Inner ≠ []
      ∧ (populateReplacements c10Plugins c10Inner).2 ≠ []
      ∧ collectProcs (.mk "Processor" c10OuterAttrs [c10Inner]) = []
      ∧ patchText c10Plugins (.mk "Processor" c10OuterAttrs [c10Inner]) "x".data = "x".data := by
  have h := c10_rejected_subtree_never_discovered c10OuterAttrs [c10Inner] (by decide)
  exact ⟨by decide, by decide, h.1, h.2 c10Plugins "x".data⟩

-- The per parameter step of handle_processor, named for lemmas

theorem handleProcessor_eq (plugins : Plugins) (st : PortMap × List Replacement)
    (proc : Processor) :
    handleProcessor plugins st proc =
      match plugins.get proc.uri with
      | none => st
      | some plugin => proc.parameterStream.foldl (stepParam plugin proc.uri) st := rfl

theorem stepParam_split (plugin : Plugin) (uri : String) (pm : PortMap)
    (reps : List Replacement) (param : Parameter) :
    stepParam plugin uri (pm, reps) param
      = ((stepParam plugin uri (pm, []) param).1,
         reps ++ (stepParam plugin uri (pm, []) param).2) := by
  unfold stepParam
  by_cases h : (pm.resolve plugin ⟨uri, param.symbol⟩).1 = param.old_index
  · simp [h]
  · simp [h]

theorem stepFold_split (plugin : Plugin) (uri : String) :
    ∀ (stream : List Parameter) (pm : PortMap) (reps : List Replacement),
      stream.foldl (stepParam plugin uri) (pm, reps)
        = ((stream.foldl (stepParam plugin uri) (pm, [])).1,
           reps ++ (stream.foldl (stepParam plugin uri) (pm, [])).2) := by
  intro stream
  induction stream with
  | nil => intro pm reps; simp
  | cons param rest ih =>
    intro pm reps
    rw [List.foldl_cons, List.foldl_cons, stepParam_split]
    rcases hq : stepParam plugin uri (pm, []) param with ⟨pmX, a⟩
    rw [ih pmX (reps ++ a), ih pmX a, List.append_assoc]

theorem stepFold_mem (plugin : Plugin) (uri : String) :
    ∀ (stream : List Parameter) (pm : PortMap) (r : Replacement),
      r ∈ (stream.foldl (stepParam plugin uri) (pm, [])).2 →
      ∃ param ∈ stream, r.location = param.location ∧ r.value ≠ param.old_index := by
  intro stream
  induction stream with
  | nil => intro pm r hr; simp [List.foldl_nil] at hr
  | cons param rest ih =>
    intro pm r hr
    rw [List.foldl_cons] at hr
    rcases hq : stepParam plugin uri (pm, []) param with ⟨pmX, a⟩
    rw [hq, stepFold_split plugin uri rest pmX a, List.mem_append] at hr
    rcases hr with hr | hr
    · unfold stepParam at hq
      by_cases h : ((pm.resolve plugin ⟨uri, param.symbol⟩).1 = param.old_index)
      · simp only [h, if_true] at hq
        injection hq with h1 h2
        rw [← h2] at hr
        exact absurd hr (List.not_mem_nil r)
      · simp only [h, if_false] at hq
        injection hq with h1 h2
        rw [← h2, List.nil_append, List.mem_singleton] at hr
        subst hr
        exact ⟨param, List.mem_cons_self _ _, rfl, h⟩
    · obtain ⟨param2, hmem, h1, h2⟩ := ih pmX r hr
      exact ⟨param2, List.mem_cons_of_mem _ hmem, h1, h2⟩

theorem stepFold_no_adds (plugin : Plugin) (uri : String) :
    ∀ (stream : List Parameter) (pm : PortMap),
      editFreeBlock plugin uri pm stream = true →
      (stream.foldl (stepParam plugin uri) (pm, [])).2 = [] := by
  intro stream
  induction stream with
  | nil => intro pm _; rfl
  | cons param rest ih =>
    intro pm h
    unfold editFreeBlock at h
    rw [Bool.and_eq_true, decide_eq_true_eq] at h
    rw [List.foldl_cons]
    have hstep : stepParam plugin uri (pm, []) param
        = ((pm.resolve plugin ⟨uri, param.symbol⟩).2, []) := by
      unfold stepParam
      rw [if_pos h.1]
    rw [hstep]
    exact ih _ h.2

theorem runFold_no_edits (plugins : Plugins) :
    ∀ (procs : List Processor) (pm : PortMap) (reps : List Replacement),
      editFreeRun plugins pm procs = true →
      (procs.foldl (handleProcessor plugins) (pm, reps)).2 = reps := by
  intro procs
  induction procs with
  | nil => intro pm reps _; rfl
  | cons proc rest ih =>
    intro pm reps h
    unfold editFreeRun at h
    rw [List.foldl_cons]
    cases hg : plugins.get proc.uri with
    | none =>
      rw [hg] at h
      have he : handleProcessor plugins (pm, reps) proc = (pm, reps) := by
        rw [handleProcessor_eq, hg]
      rw [he]
      exact ih pm reps h
    | some plugin =>
      rw [hg, Bool.and_eq_true] at h
      have hnil := stepFold_no_adds plugin proc.uri proc.parameterStream pm h.1
      have he : handleProcessor plugins (pm, reps) proc
          = ((proc.parameterStream.foldl (stepParam plugin proc.uri) (pm, [])).1, reps) := by
        rw [handleProcessor_eq]
        simp only [hg]
        rw [stepFold_split, hnil, List.append_nil]
      have he0 : (handleProcessor plugins (pm, []) proc).1
          = (proc.parameterStream.foldl (stepParam plugin proc.uri) (pm, [])).1 := by
        rw [handleProcessor_eq]
        simp only [hg]
      rw [he]
      rw [← he0]
      exact ih _ reps h.2

mutual

theorem collectProcs_nil_of_noProcTag : ∀ n, noProcTag n = true → collectProcs n = []
  | .mk tag attrs children, h => by
    unfold noProcTag at h
    rw [Bool.and_eq_true, Bool.not_eq_eq_eq_not, Bool.not_true, decide_eq_false_iff_not] at h
    unfold collectProcs
    rw [if_neg h.1]
    exact collectProcsList_nil_of_noProcTagList children h.2

theorem collectProcsList_nil_of_noProcTagList :
    ∀ l, noProcTagList l = true → collectProcsList l = []
  | [], _ => rfl
  | n :: rest, h => by
    unfold noProcTagList at h
    rw [Bool.and_eq_true] at h
    unfold collectProcsList
    rw [collectProcs_nil_of_noProcTag n h.1, collectProcsList_nil_of_noProcTagList rest h.2]
    rfl

end

/-- Claim C7: edits arise only from differences.  First, a document with no
reference element tag renders byte for byte equal to the input.  Second, a
run in which every resolved index equals the index already present produces
no replacements, so the output again equals the input.  Third, every
replacement that handle_processor appends comes from a stream parameter at
whose range it applies and whose present index differs from the value
written. -/
theorem c7_edit_only_on_difference (plugins : Plugins) :
    (∀ (root : XNode) (xml : Text),
        noProcTag root = true → patchText plugins root xml = xml)
      ∧ (∀ (root : XNode) (xml : Text),
          editFreeRun plugins ⟨[], []⟩ (collectProcs root) = true →
          patchText plugins root xml = xml)
      ∧ (∀ (st : PortMap × List Replacement) (proc : Processor) (r : Replacement),
          r ∈ (handleProcessor plugins st proc).2 →
          r ∈ st.2
            ∨ ∃ param ∈ proc.parameterStream,
                r.location = param.location ∧ r.value ≠ param.old_index) := by
  refine ⟨?_, ?_, ?_⟩
  · intro root xml h
    exact patchText_of_collect_nil plugins root xml (collectProcs_nil_of_noProcTag root h)
  · intro root xml h
    unfold patchText patchReplacements populateReplacements
    rw [runFold_no_edits plugins (collectProcs root) ⟨[], []⟩ [] h]
    rw [show sortByStart [] = [] from rfl]
    exact render_nil xml
  · intro st proc r hr
    rw [handleProcessor_eq] at hr
    cases hg : plugins.get proc.uri with
    | none =>
      rw [hg] at hr
      exact Or.inl hr
    | some plugin =>
      simp only [hg] at hr
      rcases hst : st with ⟨pm, reps⟩
      rw [hst, stepFold_split, List.mem_append] at hr
      rcases hr with hr | hr
      · exact Or.inl hr
      · exact Or.inr (stepFold_mem plugin proc.uri proc.parameterStream pm r hr)

/-- Witness for claim C7 at concrete inputs. -/
theorem c7_witness :
    patchText c7Plugins c7NoProcTree "t1".data = "t1".data
      ∧ patchText c7Plugins c7GoodTree "t2".data = "t2".data
      ∧ ((⟨⟨50, 51⟩, 2⟩ : Replacement) ∈ ((⟨[], []⟩, []) : PortMap × List Replacement).2
          ∨ ∃ param ∈ c7DiffProc.parameterStream,
              (⟨⟨50, 51⟩, 2⟩ : Replacement).location = param.location
                ∧ (⟨⟨50, 51⟩, 2⟩ : Replacement).value ≠ param.old_index) :=
  ⟨(c7_edit_only_on_difference c7Plugins).1 c7NoProcTree "t1".data (by decide),
   (c7_edit_only_on_difference c7Plugins).2.1 c7GoodTree "t2".data (by decide),
   (c7_edit_only_on_difference c7Plugins).2.2 (⟨[], []⟩, []) c7DiffProc ⟨⟨50, 51⟩, 2⟩
     (by decide)⟩

/-- Claim C8: the Parameter stream a block exposes consists of exactly the
recorded occurrences whose index has an associated symbol in the index to
symbol map of the block — each such occurrence appears with that symbol, its
range and its present index — and an occurrence whose index has no symbol
contributes nothing to the stream. -/
theorem c8_stream_exactly_symbolized (proc : Processor) :
    (∀ p : Parameter,
        p ∈ proc.parameterStream ↔
          ∃ e ∈ proc.parameters,
            mapGet proc.symbols e.1 = some p.symbol ∧ p.old_index = e.1 ∧ p.location = e.2)
      ∧ (∀ e ∈ proc.parameters, mapGet proc.symbols e.1 = none →
          ∀ p ∈ proc.parameterStream, p.old_index ≠ e.1) := by
  have hmem : ∀ p : Parameter,
      p ∈ proc.parameterStream ↔
        ∃ e ∈ proc.parameters,
          mapGet proc.symbols e.1 = some p.symbol ∧ p.old_index = e.1 ∧ p.location = e.2 := by
    intro p
    unfold Processor.parameterStream
    rw [List.mem_filterMap]
    constructor
    · rintro ⟨e, he, hf⟩
      rw [Option.map_eq_some'] at hf
      obtain ⟨s, hs, hp⟩ := hf
      subst hp
      exact ⟨e, he, hs, rfl, rfl⟩
    · rintro ⟨e, he, hm, hidx, hloc⟩
      refine ⟨e, he, ?_⟩
      rw [Option.map_eq_some']
      refine ⟨p.symbol, hm, ?_⟩
      rcases p with ⟨s, loc, idx⟩
      simp only at hidx hloc
      rw [hidx, hloc]
  refine ⟨hmem, ?_⟩
  intro e _ hnone p hp heq
  obtain ⟨e2, _, hm2, hidx2, _⟩ := (hmem p).1 hp
  rw [heq] at hidx2
  rw [hidx2] at hnone
  rw [hnone] at hm2
  exact Option.noConfusion hm2

/-- Witness for claim C8 at a concrete block: the stream is exactly the
symbolized occurrence, and no stream element carries the symbolless index. -/
theorem c8_witness :
    c8Proc.parameterStream = [⟨"g", ⟨10, 11⟩, 2⟩]
      ∧ (⟨"g", ⟨10, 11⟩, 2⟩ : Parameter) ∈ c8Proc.parameterStream
      ∧ ∀ p ∈ c8Proc.parameterStream, p.old_index ≠ 7 :=
  ⟨by decide,
   ((c8_stream_exactly_symbolized c8Proc).1 ⟨"g", ⟨10, 11⟩, 2⟩).2
     ⟨(2, ⟨10, 11⟩), by decide, by decide, rfl, rfl⟩,
   fun p hp => (c8_stream_exactly_symbolized c8Proc).2 (7, ⟨20, 21⟩) (by decide) (by decide) p hp⟩

-- Sublist chain from replacements back to extracted occurrence ranges

theorem filterMap_map_sublist {α β γ : Type} (f : α → Option β) (g : β → γ) (h : α → γ)
    (hfg : ∀ a b, f a = some b → g b = h a) :
    ∀ l : List α, ((l.filterMap f).map g).Sublist (l.map h) := by
  intro l
  induction l with
  | nil => simp
  | cons a l ih =>
    rw [List.map_cons]
    cases hfa : f a with
    | none =>
      rw [List.filterMap_cons_none hfa]
      exact ih.cons (h a)
    | some b =>
      rw [List.filterMap_cons_some hfa, List.map_cons, hfg a b hfa]
      exact ih.cons₂ (h a)

theorem stream_locs_sublist (proc : Processor) :
    ((proc.parameterStream.map (·.location)).Sublist (proc.parameters.map (·.2))) := by
  unfold Processor.parameterStream
  apply filterMap_map_sublist
  intro e p hf
  rw [Option.map_eq_some'] at hf
  obtain ⟨s, _, hp⟩ := hf
  rw [← hp]

theorem stepFold_locs_sublist (plugin : Plugin) (uri : String) :
    ∀ (stream : List Parameter) (pm : PortMap),
      ((((stream.foldl (stepParam plugin uri) (pm, [])).2).map (·.location)).Sublist
        (stream.map (·.location))) := by
  intro stream
  induction stream with
  | nil => intro pm; simp
  | cons param rest ih =>
    intro pm
    rw [List.foldl_cons, List.map_cons]
    rcases hq : stepParam plugin uri (pm, []) param with ⟨pmX, a⟩
    rw [stepFold_split plugin uri rest pmX a, List.map_append]
    unfold stepParam at hq
    by_cases h : ((pm.resolve plugin ⟨uri, param.symbol⟩).1 = param.old_index)
    · simp only [h, if_true] at hq
      injection hq with h1 h2
      rw [← h2, List.map_nil, List.nil_append]
      exact (ih pmX).cons param.location
    · simp only [h, if_false] at hq
      injection hq with h1 h2
      rw [← h2]
      simpa using (ih pmX).cons₂ param.location

theorem popFold_locs_sublist (plugins : Plugins) :
    ∀ (procs : List Processor) (pm : PortMap) (reps : List Replacement),
      ∃ (pmX : PortMap) (adds : List Replacement),
        procs.foldl (handleProcessor plugins) (pm, reps) = (pmX, reps ++ adds)
          ∧ ((adds.map (·.location)).Sublist
              ((procs.map fun p => p.parameters.map (·.2)).flatten)) := by
  intro procs
  induction procs with
  | nil =>
    intro pm reps
    exact ⟨pm, [], by simp, by simp⟩
  | cons proc rest ih =>
    intro pm reps
    rw [List.foldl_cons]
    have hone : ∃ (pm1 : PortMap) (a1 : List Replacement),
        handleProcessor plugins (pm, reps) proc = (pm1, reps ++ a1)
          ∧ ((a1.map (·.location)).Sublist (proc.parameters.map (·.2))) := by
      rw [handleProcessor_eq]
      cases hg : plugins.get proc.uri with
      | none => exact ⟨pm, [], by simp, by simp⟩
      | some plugin =>
        refine ⟨(proc.parameterStream.foldl (stepParam plugin proc.uri) (pm, [])).1,
          (proc.parameterStream.foldl (stepParam plugin proc.uri) (pm, [])).2,
          stepFold_split plugin proc.uri proc.parameterStream pm reps, ?_⟩
        exact (stepFold_locs_sublist plugin proc.uri proc.parameterStream pm).trans
          (stream_locs_sublist proc)
    obtain ⟨pm1, a1, he, hs1⟩ := hone
    rw [he]
    obtain ⟨pmX, adds2, he2, hs2⟩ := ih pm1 (reps ++ a1)
    refine ⟨pmX, a1 ++ adds2, by rw [he2, List.append_assoc], ?_⟩
    rw [List.map_cons, List.flatten_cons, List.map_append]
    exact List.Sublist.append hs1 hs2

-- Sorted disjoint nonempty ranges form a chain

theorem chain_of_sorted_disjoint :
    ∀ (l : List Replacement) (pos : Nat),
      List.Sorted repLe l →
      List.Pairwise (fun a b => BRDisj a.location b.location) l →
      (∀ r ∈ l, r.location.start < r.location.stop) →
      (∀ r ∈ l, pos ≤ r.location.start) →
      chainFrom pos l = true := by
  intro l
  induction l with
  | nil => intro pos _ _ _ _; rfl
  | cons r rest ih =>
    intro pos hsort hdisj hne hpos
    rw [List.sorted_cons] at hsort
    rw [List.pairwise_cons] at hdisj
    unfold chainFrom
    rw [Bool.and_eq_true, decide_eq_true_eq]
    refine ⟨hpos r (List.mem_cons_self _ _), ?_⟩
    refine ih r.location.stop hsort.2 hdisj.2 (fun x hx => hne x (List.mem_cons_of_mem _ hx)) ?_
    intro r2 hr2
    rcases hdisj.1 r2 hr2 with hd | hd
    · exact hd
    · exfalso
      have h1 : r.location.start ≤ r2.location.start := hsort.1 r2 hr2
      have h2 : r2.location.start < r2.location.stop := hne r2 (List.mem_cons_of_mem _ hr2)
      omega

theorem appliedFrom_eq_of_chain :
    ∀ (l : List Replacement) (pos : Nat), chainFrom pos l = true → appliedFrom pos l = l := by
  intro l
  induction l with
  | nil => intro pos _; rfl
  | cons r rest ih =>
    intro pos h
    unfold chainFrom at h
    rw [Bool.and_eq_true, decide_eq_true_eq] at h
    unfold appliedFrom
    rw [if_neg (Nat.not_lt.2 h.1), ih r.location.stop h.2]

/-- Claim C9: the renderer drops any edit whose start lies before the
cursor, leaving the cursor unchanged; and for the edit list the extractor
produces, sorted by range start, the drop branch is unreachable: since the
occurrence byte ranges of the document are pairwise disjoint and nonempty
and every edit points at one of them, the sorted edits form a chain in
which each start is at or past the previous end, so every edit is applied. -/
theorem c9_drop_defensive_unreachable (plugins : Plugins) (root : XNode) :
    (∀ (xml : Text) (pos : Nat) (r : Replacement) (rest : List Replacement),
        r.location.start < pos → renderFrom xml pos (r :: rest) = renderFrom xml pos rest)
      ∧ (List.Pairwise BRDisj (occRanges root) →
          (∀ br ∈ occRanges root, br.start < br.stop) →
          chainFrom 0 (patchReplacements plugins root) = true
            ∧ appliedFrom 0 (patchReplacements plugins root)
                = patchReplacements plugins root) := by
  constructor
  · intro xml pos r rest h
    conv_lhs => rw [renderFrom]
    rw [if_pos h]
  · intro hdisj hne
    obtain ⟨pmX, adds, he, hs⟩ :=
      popFold_locs_sublist plugins (collectProcs root) ⟨[], []⟩ []
    have hrep : (populateReplacements plugins root).2 = adds := by
      unfold populateReplacements
      rw [he]
      rfl
    have hsub : ((populateReplacements plugins root).2.map (·.location)).Sublist
        (occRanges root) := by
      rw [hrep]
      exact hs
    have hperm : (patchReplacements plugins root).Perm (populateReplacements plugins root).2 :=
      List.perm_insertionSort repLe _
    have hdisj2 : List.Pairwise (fun a b => BRDisj a.location b.location)
        (patchReplacements plugins root) := by
      have h1 : List.Pairwise BRDisj ((populateReplacements plugins root).2.map (·.location)) :=
        hdisj.sublist hsub
      rw [List.pairwise_map] at h1
      exact (List.Perm.pairwise_iff (fun hab => hab.symm) hperm).2 h1
    have hne2 : ∀ r ∈ patchReplacements plugins root, r.location.start < r.location.stop := by
      intro r hr
      have hmem : r ∈ (populateReplacements plugins root).2 := hperm.subset hr
      have : r.location ∈ (populateReplacements plugins root).2.map (·.location) :=
        List.mem_map_of_mem _ hmem
      exact hne r.location (hsub.subset this)
    have hchain : chainFrom 0 (patchReplacements plugins root) = true := by
      apply chain_of_sorted_disjoint _ 0
        (List.sorted_insertionSort repLe (populateReplacements plugins root).2)
        hdisj2 hne2
      intro r _
      exact Nat.zero_le _
    exact ⟨hchain, appliedFrom_eq_of_chain _ 0 hchain⟩

/-- Witness for claim C9 at a concrete input: both hypotheses hold for the
extracted ranges, the run produces two edits, and all of them are applied. -/
theorem c9_witness :
    (patchReplacements c9Plugins c9Tree).length = 2
      ∧ chainFrom 0 (patchReplacements c9Plugins c9Tree) = true
      ∧ appliedFrom 0 (patchReplacements c9Plugins c9Tree)
          = patchReplacements c9Plugins c9Tree :=
  ⟨by decide,
   ((c9_drop_defensive_unreachable c9Plugins c9Tree).2 (by decide) (by decide)).1,
   ((c9_drop_defensive_unreachable c9Plugins c9Tree).2 (by decide) (by decide)).2⟩

-- Claim C4 machinery: fallback entries and the counter invariant

theorem mapGet_none_key_not_mem {κ α : Type} [DecidableEq κ] {m : List (κ × α)} {k : κ}
    (h : mapGet m k = none) : k ∉ m.map (·.1) := by
  intro hk
  rw [List.mem_map] at hk
  obtain ⟨e, he, hek⟩ := hk
  have := mapGet_none_not_mem h e.2
  rw [show (k, e.2) = e from by rw [← hek]] at this
  exact this he

/-- Case analysis of PortMap::index: cache hit, provider hit, or fallback. -/
theorem resolve_cases (pm : PortMap) (pl : Plugin) (id : PortId) :
    (∃ v, mapGet pm.index id = some v ∧ pm.resolve pl id = (v, pm))
      ∨ (∃ i, mapGet pm.index id = none ∧ pl.port_index id.symbol = some i ∧
          pm.resolve pl id = (i, { pm with index := (id, i) :: pm.index }))
      ∨ (mapGet pm.index id = none ∧ pl.port_index id.symbol = none ∧
          ∃ cnt, (mapGet pm.count id.uri = some cnt
              ∨ (mapGet pm.count id.uri = none ∧ cnt = pl.numPorts)) ∧
            pm.resolve pl id
              = (cnt, ⟨(id.uri, (cnt + 1) % 2 ^ 32) :: pm.count, (id, cnt) :: pm.index⟩)) := by
  unfold PortMap.resolve
  cases h1 : mapGet pm.index id with
  | some v => exact Or.inl ⟨v, rfl, rfl⟩
  | none =>
    cases h2 : pl.port_index id.symbol with
    | some i => exact Or.inr (Or.inl ⟨i, rfl, rfl, rfl⟩)
    | none =>
      cases h3 : mapGet pm.count id.uri with
      | some c => exact Or.inr (Or.inr ⟨rfl, rfl, c, Or.inl rfl, rfl⟩)
      | none => exact Or.inr (Or.inr ⟨rfl, rfl, pl.numPorts, Or.inr ⟨rfl, rfl⟩, rfl⟩)

theorem fbInv_empty (P : String → Plugin) : FbInv P ⟨[], []⟩ := by
  refine ⟨List.nodup_nil, fun uri => ⟨fun _ => rfl, fun cv hcv => ?_⟩⟩
  exact absurd hcv (by rw [show mapGet ([] : List (String × Nat)) uri = none from rfl]; simp)

theorem fbEntries_congr (P : String → Plugin) (pm pm2 : PortMap) (uri : String)
    (h : pm2.index = pm.index) : fbEntries P pm2 uri = fbEntries P pm uri := by
  unfold fbEntries
  rw [h]

theorem fbEntries_cons (P : String → Plugin) (pm : PortMap) (uri : String)
    (cnt2 : List (String × Nat)) (e : PortId × Nat) :
    fbEntries P ⟨cnt2, e :: pm.index⟩ uri
      = if e.1.uri = uri ∧ (P uri).port_index e.1.symbol = none
        then e :: fbEntries P pm uri else fbEntries P pm uri := by
  unfold fbEntries
  rw [List.filter_cons]
  by_cases h : e.1.uri = uri ∧ (P uri).port_index e.1.symbol = none
  · rw [if_pos h]
    rw [if_pos (by rw [Bool.and_eq_true, decide_eq_true_eq, decide_eq_true_eq]; exact h)]
  · rw [if_neg h]
    rw [if_neg (by rw [Bool.and_eq_true, decide_eq_true_eq, decide_eq_true_eq]; exact h)]

theorem range'_reverse_cons (s k : Nat) :
    (s + k) :: (List.range' s k).reverse = (List.range' s (k + 1)).reverse := by
  rw [List.range'_concat, List.reverse_append]
  simp

/-- Preservation of the fallback invariant by one resolver call under the
per uri plugin assignment, given that the counter of the uri of the key
cannot wrap on this call. -/
theorem resolve_fbInv_step (P : String → Plugin) (pm : PortMap) (id : PortId)
    (hInv : FbInv P pm)
    (hb : (P id.uri).numPorts + (fbEntries P pm id.uri).length + 1 < 2 ^ 32) :
    FbInv P (pm.resolve (P id.uri) id).2 := by
  rcases resolve_cases pm (P id.uri) id with
    ⟨v, h1, he⟩ | ⟨i, h1, h2, he⟩ | ⟨h1, h2, cnt, hcnt, he⟩
  · rw [he]
    exact hInv
  · rw [he]
    refine ⟨?_, ?_⟩
    · rw [List.map_cons, List.nodup_cons]
      exact ⟨mapGet_none_key_not_mem h1, hInv.1⟩
    · intro uri
      have hfb : fbEntries P { pm with index := (id, i) :: pm.index } uri
          = fbEntries P pm uri := by
        rw [fbEntries_cons]
        rw [if_neg]
        rintro ⟨ha, hbn⟩
        rw [← ha] at hbn
        rw [h2] at hbn
        exact Option.noConfusion hbn
      rw [hfb]
      exact hInv.2 uri
  · rw [he]
    refine ⟨?_, ?_⟩
    · rw [List.map_cons, List.nodup_cons]
      exact ⟨mapGet_none_key_not_mem h1, hInv.1⟩
    · intro uri
      by_cases huri : uri = id.uri
      · subst huri
        have hfb : fbEntries P ⟨(id.uri, (cnt + 1) % 2 ^ 32) :: pm.count, (id, cnt) :: pm.index⟩ id.uri
            = (id, cnt) :: fbEntries P pm id.uri := by
          rw [fbEntries_cons]
          rw [if_pos ⟨rfl, h2⟩]
        constructor
        · intro hnone
          rw [show mapGet ((id.uri, (cnt + 1) % 2 ^ 32) :: pm.count) id.uri
              = some ((cnt + 1) % 2 ^ 32) from mapGet_cons_self _ _ _] at hnone
          exact Option.noConfusion hnone
        · intro cv hcv
          rw [show mapGet ((id.uri, (cnt + 1) % 2 ^ 32) :: pm.count) id.uri
              = some ((cnt + 1) % 2 ^ 32) from mapGet_cons_self _ _ _] at hcv
          injection hcv with hcv
          rw [hfb]
          rcases hcnt with hsome | ⟨hnone, hnp⟩
          · obtain ⟨hlen, hvals⟩ := (hInv.2 id.uri).2 cnt hsome
            have hmod : (cnt + 1) % 2 ^ 32 = cnt + 1 := by
              apply Nat.mod_eq_of_lt
              omega
            rw [hmod] at hcv
            refine ⟨?_, ?_⟩
            · rw [← hcv, List.length_cons]
              omega
            · rw [List.map_cons, List.length_cons, hvals, hlen]
              exact range'_reverse_cons _ _
          · have hk0 : fbEntries P pm id.uri = [] := (hInv.2 id.uri).1 hnone
            have hmod : (cnt + 1) % 2 ^ 32 = cnt + 1 := by
              apply Nat.mod_eq_of_lt
              omega
            rw [hmod] at hcv
            rw [hk0] at hb ⊢
            refine ⟨?_, ?_⟩
            · rw [← hcv, hnp]
              rfl
            · rw [List.map_cons, List.map_nil, List.length_cons, List.length_nil, hnp]
              rw [show (List.range' (P id.uri).numPorts (0 + 1)).reverse
                  = ((P id.uri).numPorts + 0) :: (List.range' (P id.uri).numPorts 0).reverse from
                  (range'_reverse_cons _ _).symm]
              rfl
      · have hfb : fbEntries P ⟨(id.uri, (cnt + 1) % 2 ^ 32) :: pm.count, (id, cnt) :: pm.index⟩ uri
            = fbEntries P pm uri := by
          rw [fbEntries_cons]
          rw [if_neg]
          rintro ⟨ha, hbn⟩
          exact huri ha.symm
        have hcn : mapGet ((id.uri, (cnt + 1) % 2 ^ 32) :: pm.count) uri
            = mapGet pm.count uri := mapGet_cons_ne _ _ _ _ (fun h => huri h.symm)
        rw [hfb]
        constructor
        · intro hnone
          rw [hcn] at hnone
          exact (hInv.2 uri).1 hnone
        · intro cv hcv
          rw [hcn] at hcv
          exact (hInv.2 uri).2 cv hcv

theorem fbEntries_resolve_le (P : String → Plugin) (pm : PortMap) (pl : Plugin)
    (id : PortId) (u : String) :
    (fbEntries P (pm.resolve pl id).2 u).length ≤ (fbEntries P pm u).length + 1 := by
  rcases resolve_cases pm pl id with
    ⟨v, h1, he⟩ | ⟨i, h1, h2, he⟩ | ⟨h1, h2, cnt, hcnt, he⟩
  · have hsnd : (pm.resolve pl id).2 = pm := by rw [he]
    rw [hsnd]
    omega
  · have hsnd : (pm.resolve pl id).2 = { pm with index := (id, i) :: pm.index } := by rw [he]
    rw [hsnd, fbEntries_cons]
    split_ifs with h
    · rw [List.length_cons]
    · omega
  · have hsnd : (pm.resolve pl id).2
        = ⟨(id.uri, (cnt + 1) % 2 ^ 32) :: pm.count, (id, cnt) :: pm.index⟩ := by rw [he]
    rw [hsnd, fbEntries_cons]
    split_ifs with h
    · rw [List.length_cons]
    · omega

theorem runKeys_fbInv (P : String → Plugin) :
    ∀ (keys : List PortId) (pm : PortMap),
      FbInv P pm →
      (∀ id ∈ keys,
        (P id.uri).numPorts + (fbEntries P pm id.uri).length + keys.length < 2 ^ 32) →
      FbInv P (runKeys P pm keys) := by
  intro keys
  induction keys with
  | nil => intro pm hInv _; exact hInv
  | cons id rest ih =>
    intro pm hInv hb
    have hb_id : (P id.uri).numPorts + (fbEntries P pm id.uri).length + 1 < 2 ^ 32 := by
      have := hb id (List.mem_cons_self _ _)
      rw [List.length_cons] at this
      omega
    have hInv2 := resolve_fbInv_step P pm id hInv hb_id
    show FbInv P (runKeys P (pm.resolve (P id.uri) id).2 rest)
    apply ih _ hInv2
    intro id2 hid2
    have h1 := hb id2 (List.mem_cons_of_mem _ hid2)
    rw [List.length_cons] at h1
    have h2 := fbEntries_resolve_le P pm (P id.uri) id id2.uri
    omega

theorem runKeys_index_extends (P : String → Plugin) :
    ∀ (keys : List PortId) (pm : PortMap),
      ∃ new, (runKeys P pm keys).index = new ++ pm.index := by
  intro keys
  induction keys with
  | nil => intro pm; exact ⟨[], rfl⟩
  | cons id rest ih =>
    intro pm
    show ∃ new, (runKeys P (pm.resolve (P id.uri) id).2 rest).index = new ++ pm.index
    rcases resolve_cases pm (P id.uri) id with
      ⟨v, _, he⟩ | ⟨i, _, _, he⟩ | ⟨_, _, cnt, _, he⟩
    · have hsnd : (pm.resolve (P id.uri) id).2 = pm := by rw [he]
      rw [hsnd]
      exact ih pm
    · have hsnd : (pm.resolve (P id.uri) id).2
          = { pm with index := (id, i) :: pm.index } := by rw [he]
      rw [hsnd]
      obtain ⟨new2, h2⟩ := ih { pm with index := (id, i) :: pm.index }
      refine ⟨new2 ++ [(id, i)], ?_⟩
      rw [h2, List.append_assoc]
      rfl
    · have hsnd : (pm.resolve (P id.uri) id).2
          = ⟨(id.uri, (cnt + 1) % 2 ^ 32) :: pm.count, (id, cnt) :: pm.index⟩ := by rw [he]
      rw [hsnd]
      obtain ⟨new2, h2⟩ :=
        ih ⟨(id.uri, (cnt + 1) % 2 ^ 32) :: pm.count, (id, cnt) :: pm.index⟩
      refine ⟨new2 ++ [(id, cnt)], ?_⟩
      rw [h2, List.append_assoc]
      rfl

theorem runKeys_preserves_entry (P : String → Plugin) {pm : PortMap} {id : PortId} {v : Nat}
    (keys : List PortId) (h : mapGet pm.index id = some v) :
    mapGet (runKeys P pm keys).index id = some v := by
  induction keys generalizing pm with
  | nil => exact h
  | cons c rest ih => exact ih (resolve_preserves (P c.uri) c h)

theorem mem_fbEntries_of (P : String → Plugin) (pm : PortMap) (uri s : String) (v : Nat)
    (hm : mapGet pm.index ⟨uri, s⟩ = some v)
    (hp : (P uri).port_index s = none) : (⟨uri, s⟩, v) ∈ fbEntries P pm uri := by
  unfold fbEntries
  rw [List.mem_filter]
  refine ⟨mapGet_some_mem hm, ?_⟩
  rw [Bool.and_eq_true, decide_eq_true_eq, decide_eq_true_eq]
  exact ⟨rfl, hp⟩

/-- Extraction of the invariant facts for a uri with at least one fallback
entry: the fallback values are exactly an initial segment of the naturals
from the port count, newest first. -/
theorem fbInv_values (P : String → Plugin) (pm : PortMap) (uri : String)
    (hInv : FbInv P pm) (hne : fbEntries P pm uri ≠ []) :
    (fbEntries P pm uri).map (·.2)
      = (List.range' (P uri).numPorts (fbEntries P pm uri).length).reverse := by
  cases hc : mapGet pm.count uri with
  | none => exact absurd ((hInv.2 uri).1 hc) hne
  | some cv => exact ((hInv.2 uri).2 cv hc).2

theorem runKeys_append (P : String → Plugin) :
    ∀ (keys1 keys2 : List PortId) (pm : PortMap),
      runKeys P pm (keys1 ++ keys2) = runKeys P (runKeys P pm keys1) keys2 := by
  intro keys1
  induction keys1 with
  | nil => intro keys2 pm; rfl
  | cons id rest ih => intro keys2 pm; exact ih keys2 _

theorem fbEntries_empty (P : String → Plugin) (u : String) :
    fbEntries P ⟨[], []⟩ u = [] := rfl

/-- Claim C4 as amended (no u32 counter overflow: the reported port count of
each uri plus the number of resolver calls stays below 2 ^ 32).  In a run
from the empty PortMap in which every resolver call for a uri passes the
plugin of that uri, any two distinct symbols under one uri that the provider
fails to resolve receive distinct fallback indices, each at least the
reported port count of the plugin; and the assignments grow monotonically:
a key assigned while a second key is still unresolved gets the smaller
index. -/
theorem c4_fallback_unique_amended (P : String → Plugin) (keys1 keys2 : List PortId)
    (uri s1 s2 : String) (v1 v2 : Nat)
    (hbound : ∀ id ∈ keys1 ++ keys2,
        (P id.uri).numPorts + (keys1 ++ keys2).length < 2 ^ 32)
    (hp1 : (P uri).port_index s1 = none) (hp2 : (P uri).port_index s2 = none)
    (hne : s1 ≠ s2)
    (h1 : mapGet (runKeys P ⟨[], []⟩ (keys1 ++ keys2)).index ⟨uri, s1⟩ = some v1)
    (h2 : mapGet (runKeys P ⟨[], []⟩ (keys1 ++ keys2)).index ⟨uri, s2⟩ = some v2) :
    (v1 ≠ v2 ∧ (P uri).numPorts ≤ v1 ∧ (P uri).numPorts ≤ v2)
      ∧ (mapGet (runKeys P ⟨[], []⟩ keys1).index ⟨uri, s1⟩ = some v1 →
          mapGet (runKeys P ⟨[], []⟩ keys1).index ⟨uri, s2⟩ = none →
          v1 < v2) := by
  have hInvF : FbInv P (runKeys P ⟨[], []⟩ (keys1 ++ keys2)) := by
    apply runKeys_fbInv P _ _ (fbInv_empty P)
    intro id hid
    rw [fbEntries_empty]
    simp only [List.length_nil]
    have := hbound id hid
    omega
  have he1 : (⟨uri, s1⟩, v1) ∈ fbEntries P (runKeys P ⟨[], []⟩ (keys1 ++ keys2)) uri :=
    mem_fbEntries_of P _ uri s1 v1 h1 hp1
  have he2 : (⟨uri, s2⟩, v2) ∈ fbEntries P (runKeys P ⟨[], []⟩ (keys1 ++ keys2)) uri :=
    mem_fbEntries_of P _ uri s2 v2 h2 hp2
  have hvals := fbInv_values P _ uri hInvF (List.ne_nil_of_mem he1)
  have hnodup : ((fbEntries P (runKeys P ⟨[], []⟩ (keys1 ++ keys2)) uri).map (·.2)).Nodup := by
    rw [hvals]
    exact List.nodup_reverse.2 (List.nodup_range' _ _)
  have hv1mem : v1 ∈ (fbEntries P (runKeys P ⟨[], []⟩ (keys1 ++ keys2)) uri).map (·.2) :=
    List.mem_map_of_mem _ he1
  have hv2mem : v2 ∈ (fbEntries P (runKeys P ⟨[], []⟩ (keys1 ++ keys2)) uri).map (·.2) :=
    List.mem_map_of_mem _ he2
  refine ⟨⟨?_, ?_, ?_⟩, ?_⟩
  · intro heq
    have := List.inj_on_of_nodup_map hnodup he1 he2 heq
    injection this with hk hv
    injection hk with hk1 hk2
    exact hne hk2
  · rw [hvals, List.mem_reverse, List.mem_range'_1] at hv1mem
    exact hv1mem.1
  · rw [hvals, List.mem_reverse, List.mem_range'_1] at hv2mem
    exact hv2mem.1
  · intro h1a h2pre
    obtain ⟨new, hext⟩ := runKeys_index_extends P keys2 (runKeys P ⟨[], []⟩ keys1)
    rw [← runKeys_append] at hext
    have hfbsplit : fbEntries P (runKeys P ⟨[], []⟩ (keys1 ++ keys2)) uri
        = (new.filter fun e =>
              decide (e.1.uri = uri) && decide ((P uri).port_index e.1.symbol = none))
          ++ ((runKeys P ⟨[], []⟩ keys1).index.filter fun e =>
              decide (e.1.uri = uri) && decide ((P uri).port_index e.1.symbol = none)) := by
      unfold fbEntries
      rw [hext, List.filter_append]
    have he2new : (⟨uri, s2⟩, v2)
        ∈ new.filter fun e =>
            decide (e.1.uri = uri) && decide ((P uri).port_index e.1.symbol = none) := by
      have := he2
      rw [hfbsplit, List.mem_append] at this
      rcases this with hin | hin
      · exact hin
      · exfalso
        exact mapGet_none_not_mem h2pre v2 (List.mem_of_mem_filter hin)
    have he1old : (⟨uri, s1⟩, v1)
        ∈ (runKeys P ⟨[], []⟩ keys1).index.filter fun e =>
            decide (e.1.uri = uri) && decide ((P uri).port_index e.1.symbol = none) := by
      rw [List.mem_filter]
      refine ⟨mapGet_some_mem h1a, ?_⟩
      rw [Bool.and_eq_true, decide_eq_true_eq, decide_eq_true_eq]
      exact ⟨rfl, hp1⟩
    have hpair : List.Pairwise (fun a b => a > b)
        ((fbEntries P (runKeys P ⟨[], []⟩ (keys1 ++ keys2)) uri).map (·.2)) := by
      rw [hvals]
      rw [List.pairwise_reverse]
      exact List.pairwise_lt_range' _ _
    rw [hfbsplit, List.map_append] at hpair
    rw [List.pairwise_append] at hpair
    exact hpair.2.2 v2 (List.mem_map_of_mem _ he2new) v1 (List.mem_map_of_mem _ he1old)

/-- Counterexample to claim C4 as stated: with a reported port count of
2 ^ 32 - 1, the first fallback for symbol a takes the counter value
2 ^ 32 - 1 and the u32 increment wraps the counter to zero, so the second
distinct unresolved symbol b receives fallback index 0, which collides with
provider indices and is smaller than the reported port count instead of at
least it. -/
theorem c4_counterexample :
    mapGet (runKeys (fun _ => c4CexPlugin) ⟨[], []⟩ [⟨"u", "a"⟩, ⟨"u", "b"⟩]).index
        ⟨"u", "a"⟩ = some (2 ^ 32 - 1)
      ∧ mapGet (runKeys (fun _ => c4CexPlugin) ⟨[], []⟩ [⟨"u", "a"⟩, ⟨"u", "b"⟩]).index
          ⟨"u", "b"⟩ = some 0
      ∧ 0 < c4CexPlugin.numPorts := by
  refine ⟨by decide, by decide, by decide⟩

/-- Witness for the amended claim C4 at a concrete run: symbols a and b
under uri u are unresolvable; a is assigned 10 and b is assigned 11 — ports
distinct, both at least the reported count 10, and increasing in assignment
order. -/
theorem c4_witness :
    (10 ≠ 11 ∧ (c4WPlugins "u").numPorts ≤ 10 ∧ (c4WPlugins "u").numPorts ≤ 11)
      ∧ (10 : Nat) < 11 :=
  have h := c4_fallback_unique_amended c4WPlugins [⟨"u", "a"⟩] [⟨"u", "b"⟩]
    "u" "a" "b" 10 11 (by decide) (by decide) (by decide) (by decide)
    (by decide) (by decide)
  ⟨h.1, h.2 (by decide) (by decide)⟩

-- Claim C2 machinery, part 1: provider consistency of the cache

theorem consistent_empty (plugins : Plugins) : Consistent plugins ⟨[], []⟩ := by
  intro u s v plugin _ hm
  rw [show mapGet ([] : List (PortId × Nat)) ⟨u, s⟩ = none from rfl] at hm
  exact Option.noConfusion hm

/-- Resolving a provider resolvable key on a consistent map returns the
provider index and keeps the map consistent. -/
theorem resolve_found_consistent (plugins : Plugins) {pm : PortMap} {u s : String}
    {v0 : Nat} {plugin : Plugin}
    (hget : plugins.get u = some plugin)
    (hfound : plugin.port_index s = some v0)
    (hcons : Consistent plugins pm) :
    (pm.resolve plugin ⟨u, s⟩).1 = v0
      ∧ Consistent plugins (pm.resolve plugin ⟨u, s⟩).2 := by
  rcases resolve_cases pm plugin ⟨u, s⟩ with
    ⟨v, h1, he⟩ | ⟨i, h1, h2, he⟩ | ⟨h1, h2, cnt, hcnt, he⟩
  · have hv : v = v0 := by
      have := hcons u s v plugin hget h1
      rw [hfound] at this
      injection this with this
      exact this.symm
    have hfst : (pm.resolve plugin ⟨u, s⟩).1 = v := by rw [he]
    have hsnd : (pm.resolve plugin ⟨u, s⟩).2 = pm := by rw [he]
    rw [hfst, hsnd]
    exact ⟨hv, hcons⟩
  · have hi : i = v0 := by
      rw [h2] at hfound
      injection hfound
    have hfst : (pm.resolve plugin ⟨u, s⟩).1 = i := by rw [he]
    have hsnd : (pm.resolve plugin ⟨u, s⟩).2
        = { pm with index := (⟨u, s⟩, i) :: pm.index } := by rw [he]
    rw [hfst, hsnd]
    refine ⟨hi, ?_⟩
    intro u2 s2 v2 plugin2 hget2 hm2
    by_cases hk : (⟨u2, s2⟩ : PortId) = ⟨u, s⟩
    · rw [hk, mapGet_cons_self] at hm2
      injection hm2 with hm2
      injection hk with hku hks
      subst hku
      subst hks
      rw [hget] at hget2
      injection hget2 with hget2
      rw [← hget2, ← hm2]
      exact h2
    · rw [mapGet_cons_ne _ _ _ _ (fun h => hk h.symm)] at hm2
      exact hcons u2 s2 v2 plugin2 hget2 hm2
  · rw [h2] at hfound
    exact Option.noConfusion hfound

/-- Every stream element has its present index mapped to its symbol. -/
theorem stream_mem_symbol (proc : Processor) (p : Parameter)
    (hp : p ∈ proc.parameterStream) :
    mapGet proc.symbols p.old_index = some p.symbol := by
  unfold Processor.parameterStream at hp
  rw [List.mem_filterMap] at hp
  obtain ⟨e, _, hf⟩ := hp
  rw [Option.map_eq_some'] at hf
  obtain ⟨s, hs, hpe⟩ := hf
  subst hpe
  exact hs

/-- A block all of whose stream elements already carry the provider index of
their symbol produces no replacement and keeps the map consistent. -/
theorem blockFold_no_adds (plugins : Plugins) {uri : String} {plugin : Plugin}
    (hget : plugins.get uri = some plugin) :
    ∀ (stream : List Parameter) (pm : PortMap),
      Consistent plugins pm →
      (∀ p ∈ stream, plugin.port_index p.symbol = some p.old_index) →
      (stream.foldl (stepParam plugin uri) (pm, [])).2 = []
        ∧ Consistent plugins (stream.foldl (stepParam plugin uri) (pm, [])).1 := by
  intro stream
  induction stream with
  | nil => intro pm hcons _; exact ⟨rfl, hcons⟩
  | cons param rest ih =>
    intro pm hcons hstream
    have hfound := hstream param (List.mem_cons_self _ _)
    obtain ⟨hfst, hcons2⟩ := resolve_found_consistent plugins hget hfound hcons
    rw [List.foldl_cons]
    have hstep : stepParam plugin uri (pm, []) param
        = ((pm.resolve plugin ⟨uri, param.symbol⟩).2, []) := by
      unfold stepParam
      rw [if_pos hfst]
    rw [hstep]
    exact ih _ hcons2 (fun p hp => hstream p (List.mem_cons_of_mem _ hp))

-- Fold split for handleProcessor over processor lists

theorem handleProcessor_split (plugins : Plugins) (pm : PortMap)
    (reps : List Replacement) (proc : Processor) :
    handleProcessor plugins (pm, reps) proc
      = ((handleProcessor plugins (pm, []) proc).1,
         reps ++ (handleProcessor plugins (pm, []) proc).2) := by
  rw [handleProcessor_eq, handleProcessor_eq]
  cases hg : plugins.get proc.uri with
  | none => simp
  | some plugin =>
    show proc.parameterStream.foldl (stepParam plugin proc.uri) (pm, reps)
        = ((proc.parameterStream.foldl (stepParam plugin proc.uri) (pm, [])).1,
           reps ++ (proc.parameterStream.foldl (stepParam plugin proc.uri) (pm, [])).2)
    exact stepFold_split plugin proc.uri proc.parameterStream pm reps

theorem handleFold_split (plugins : Plugins) :
    ∀ (procs : List Processor) (pm : PortMap) (reps : List Replacement),
      procs.foldl (handleProcessor plugins) (pm, reps)
        = ((procs.foldl (handleProcessor plugins) (pm, [])).1,
           reps ++ (procs.foldl (handleProcessor plugins) (pm, [])).2) := by
  intro procs
  induction procs with
  | nil => intro pm reps; simp
  | cons proc rest ih =>
    intro pm reps
    rw [List.foldl_cons, List.foldl_cons, handleProcessor_split]
    rcases hq : handleProcessor plugins (pm, []) proc with ⟨pmX, a⟩
    rw [ih pmX (reps ++ a), ih pmX a, List.append_assoc]

-- Claim C2 machinery, part 2: the last Controllable symbol for an index

theorem mapGet_build_symbols :
    ∀ (items : List Item) (p : Processor) (i : Nat),
      mapGet ((items.foldl buildStep p).symbols) i
        = lastCtrlSym i items (mapGet p.symbols i) := by
  intro items
  induction items with
  | nil => intro p i; rfl
  | cons it rest ih =>
    intro p i
    rw [List.foldl_cons]
    cases it with
    | auto j r =>
      rw [show buildStep p (.auto j r)
          = { p with parameters := p.parameters ++ [(j, r)] } from rfl]
      rw [ih]
      rfl
    | ctrl j s r =>
      have hb : buildStep p (.ctrl j s r)
          = { p with
              symbols := (j, s) :: p.symbols
              parameters := p.parameters ++ [(j, r)] } := rfl
      rw [hb]
      rw [ih]
      show lastCtrlSym i rest (mapGet ((j, s) :: p.symbols) i)
        = lastCtrlSym i rest (if j = i then some s else mapGet p.symbols i)
      by_cases hj : j = i
      · rw [if_pos hj, hj, mapGet_cons_self]
      · rw [if_neg hj, mapGet_cons_ne _ _ _ _ hj]

theorem mapGet_buildProcessor_symbols (uri : String) (items : List Item) (i : Nat) :
    mapGet ((buildProcessor uri items).symbols) i = lastCtrlSym i items none := by
  unfold buildProcessor
  rw [mapGet_build_symbols]
  rfl

theorem lastCtrl_some_start_ne_none :
    ∀ (items : List Item) (i : Nat) (x : String),
      lastCtrlSym i items (some x) ≠ none := by
  intro items
  induction items with
  | nil => intro i x h; exact Option.noConfusion h
  | cons it rest ih =>
    intro i x h
    cases it with
    | auto j r => exact ih i x h
    | ctrl j s r =>
      rw [show lastCtrlSym i (.ctrl j s r :: rest) (some x)
          = lastCtrlSym i rest (if j = i then some s else some x) from rfl] at h
      by_cases hj : j = i
      · rw [if_pos hj] at h
        exact ih i s h
      · rw [if_neg hj] at h
        exact ih i x h

theorem lastCtrl_some_any_acc :
    ∀ (items : List Item) (i : Nat) (s : String),
      lastCtrlSym i items none = some s → ∀ acc, lastCtrlSym i items acc = some s := by
  intro items
  induction items with
  | nil => intro i s h; exact Option.noConfusion h
  | cons it rest ih =>
    intro i s h acc
    cases it with
    | auto j r => exact ih i s h acc
    | ctrl j s2 r =>
      rw [show lastCtrlSym i (.ctrl j s2 r :: rest) none
          = lastCtrlSym i rest (if j = i then some s2 else none) from rfl] at h
      rw [show lastCtrlSym i (.ctrl j s2 r :: rest) acc
          = lastCtrlSym i rest (if j = i then some s2 else acc) from rfl]
      by_cases hj : j = i
      · rw [if_pos hj] at h ⊢
        exact h
      · rw [if_neg hj] at h ⊢
        exact ih i s h acc

theorem lastCtrl_none_any_acc :
    ∀ (items : List Item) (i : Nat),
      lastCtrlSym i items none = none → ∀ acc, lastCtrlSym i items acc = acc := by
  intro items
  induction items with
  | nil => intro i _ acc; rfl
  | cons it rest ih =>
    intro i h acc
    cases it with
    | auto j r => exact ih i h acc
    | ctrl j s2 r =>
      rw [show lastCtrlSym i (.ctrl j s2 r :: rest) none
          = lastCtrlSym i rest (if j = i then some s2 else none) from rfl] at h
      rw [show lastCtrlSym i (.ctrl j s2 r :: rest) acc
          = lastCtrlSym i rest (if j = i then some s2 else acc) from rfl]
      by_cases hj : j = i
      · rw [if_pos hj] at h
        exact absurd h (lastCtrl_some_start_ne_none rest i s2)
      · rw [if_neg hj] at h ⊢
        exact ih i h acc

theorem lastCtrl_ne_none_of_mem :
    ∀ (items : List Item) (i : Nat) (s : String) (r : ByteRange),
      Item.ctrl i s r ∈ items → ∀ acc, lastCtrlSym i items acc ≠ none := by
  intro items
  induction items with
  | nil => intro i s r h; exact absurd h (List.not_mem_nil _)
  | cons it rest ih =>
    intro i s r h acc
    rcases List.mem_cons.1 h with hh | hh
    · rw [← hh]
      rw [show lastCtrlSym i (.ctrl i s r :: rest) acc
          = lastCtrlSym i rest (if i = i then some s else acc) from rfl]
      rw [if_pos rfl]
      exact lastCtrl_some_start_ne_none rest i s
    · cases it with
      | auto j r2 => exact ih i s r hh acc
      | ctrl j s2 r2 =>
        rw [show lastCtrlSym i (.ctrl j s2 r2 :: rest) acc
            = lastCtrlSym i rest (if j = i then some s2 else acc) from rfl]
        by_cases hj : j = i
        · rw [if_pos hj]
          exact lastCtrl_some_start_ne_none rest i s2
        · rw [if_neg hj]
          exact ih i s r hh acc

theorem lastCtrl_some_mem :
    ∀ (items : List Item) (i : Nat) (s : String) (acc : Option String),
      lastCtrlSym i items acc = some s →
      (∃ r, Item.ctrl i s r ∈ items) ∨ acc = some s := by
  intro items
  induction items with
  | nil => intro i s acc h; exact Or.inr h
  | cons it rest ih =>
    intro i s acc h
    cases it with
    | auto j r =>
      rcases ih i s acc h with ⟨r2, hm⟩ | hacc
      · exact Or.inl ⟨r2, List.mem_cons_of_mem _ hm⟩
      · exact Or.inr hacc
    | ctrl j s2 r =>
      rw [show lastCtrlSym i (.ctrl j s2 r :: rest) acc
          = lastCtrlSym i rest (if j = i then some s2 else acc) from rfl] at h
      by_cases hj : j = i
      · rw [if_pos hj] at h
        rcases ih i s _ h with ⟨r2, hm⟩ | hacc
        · exact Or.inl ⟨r2, List.mem_cons_of_mem _ hm⟩
        · injection hacc with hacc
          exact Or.inl ⟨r, by rw [hj, hacc] at *; exact List.mem_cons_self _ _⟩
      · rw [if_neg hj] at h
        rcases ih i s acc h with ⟨r2, hm⟩ | hacc
        · exact Or.inl ⟨r2, List.mem_cons_of_mem _ hm⟩
        · exact Or.inr hacc

-- Claim C2 machinery, part 3: what one run leaves in the occurrence items

theorem patchItems_cons_none (plugin : Plugin) (uri : String)
    (syms : List (Nat × String)) (pm : PortMap) (it : Item) (rest : List Item)
    (h : mapGet syms it.index = none) :
    patchItems plugin uri syms pm (it :: rest)
      = ((patchItems plugin uri syms pm rest).1,
         it :: (patchItems plugin uri syms pm rest).2) := by
  conv_lhs => rw [patchItems]
  rw [h]

theorem patchItems_cons_some (plugin : Plugin) (uri : String)
    (syms : List (Nat × String)) (pm : PortMap) (it : Item) (rest : List Item)
    (s : String) (h : mapGet syms it.index = some s) :
    patchItems plugin uri syms pm (it :: rest)
      = ((patchItems plugin uri syms (pm.resolve plugin ⟨uri, s⟩).2 rest).1,
         it.withIndex (pm.resolve plugin ⟨uri, s⟩).1
           :: (patchItems plugin uri syms (pm.resolve plugin ⟨uri, s⟩).2 rest).2) := by
  conv_lhs => rw [patchItems]
  rw [h]

/-- A Controllable occurrence whose map symbol the provider resolves to v0
reappears after the run as a Controllable occurrence with index v0 and its
own symbol. -/
theorem patchItems_ctrl_image (plugins : Plugins) {uri : String} {plugin : Plugin}
    (hget : plugins.get uri = some plugin) (syms1 : List (Nat × String))
    (Hfound : ∀ j2 s2, mapGet syms1 j2 = some s2 → ∃ v, plugin.port_index s2 = some v) :
    ∀ (items : List Item) (pm : PortMap) (j : Nat) (sx s' : String) (rx : ByteRange)
      (v0 : Nat),
      Consistent plugins pm →
      Item.ctrl j sx rx ∈ items →
      mapGet syms1 j = some s' →
      plugin.port_index s' = some v0 →
      ∃ r2, Item.ctrl v0 sx r2 ∈ (patchItems plugin uri syms1 pm items).2 := by
  intro items
  induction items with
  | nil =>
    intro pm j sx s' rx v0 _ hmem _ _
    exact absurd hmem (List.not_mem_nil _)
  | cons it rest ih =>
    intro pm j sx s' rx v0 hcons hmem hs hv
    rcases List.mem_cons.1 hmem with hh | hh
    · rw [← hh]
      have hidx : (Item.ctrl j sx rx).index = j := rfl
      rw [patchItems_cons_some plugin uri syms1 pm (Item.ctrl j sx rx) rest s'
        (by rw [hidx, hs])]
      have hfst := (resolve_found_consistent plugins hget hv hcons).1
      refine ⟨rx, ?_⟩
      rw [show (Item.ctrl j sx rx).withIndex (pm.resolve plugin ⟨uri, s'⟩).1
          = Item.ctrl (pm.resolve plugin ⟨uri, s'⟩).1 sx rx from rfl, hfst]
      exact List.mem_cons_self _ _
    · cases hσ : mapGet syms1 it.index with
      | none =>
        rw [patchItems_cons_none plugin uri syms1 pm it rest hσ]
        obtain ⟨r2, hr2⟩ := ih pm j sx s' rx v0 hcons hh hs hv
        exact ⟨r2, List.mem_cons_of_mem _ hr2⟩
      | some s2 =>
        obtain ⟨v2, hv2⟩ := Hfound it.index s2 hσ
        have hcons2 := (resolve_found_consistent plugins hget hv2 hcons).2
        rw [patchItems_cons_some plugin uri syms1 pm it rest s2 hσ]
        obtain ⟨r2, hr2⟩ := ih _ j sx s' rx v0 hcons2 hh hs hv
        exact ⟨r2, List.mem_cons_of_mem _ hr2⟩

/-- Core lemma for claim C2: after one run over a block whose resolvable
symbols the provider all finds, the index to symbol map that re-extraction
would build sends every index to a symbol the provider resolves to exactly
that index; and the PortMap stays consistent. -/
theorem patchItems_good (plugins : Plugins) {uri : String} {plugin : Plugin}
    (hget : plugins.get uri = some plugin) (syms1 : List (Nat × String))
    (Hfound : ∀ j s, mapGet syms1 j = some s → ∃ v, plugin.port_index s = some v) :
    ∀ (items : List Item) (pm : PortMap),
      Consistent plugins pm →
      (∀ j s r, Item.ctrl j s r ∈ items → mapGet syms1 j ≠ none) →
      (∀ j s, lastCtrlSym j items none = some s → mapGet syms1 j = some s) →
      Consistent plugins (patchItems plugin uri syms1 pm items).1
        ∧ ∀ i s, lastCtrlSym i (patchItems plugin uri syms1 pm items).2 none = some s →
            plugin.port_index s = some i := by
  intro items
  induction items with
  | nil =>
    intro pm hcons _ _
    exact ⟨hcons, fun i s h => absurd h (by intro h2; exact Option.noConfusion h2)⟩
  | cons it rest ih =>
    intro pm hcons Hself Hlast
    cases hσ : mapGet syms1 it.index with
    | none =>
      have hauto : ∃ j r, it = Item.auto j r := by
        cases it with
        | auto j r => exact ⟨j, r, rfl⟩
        | ctrl j s r => exact absurd hσ (Hself j s r (List.mem_cons_self _ _))
      obtain ⟨j, r, hit⟩ := hauto
      rw [patchItems_cons_none plugin uri syms1 pm it rest hσ]
      have Hself2 : ∀ j2 s2 r2, Item.ctrl j2 s2 r2 ∈ rest → mapGet syms1 j2 ≠ none :=
        fun j2 s2 r2 hm => Hself j2 s2 r2 (List.mem_cons_of_mem _ hm)
      have Hlast2 : ∀ j2 s2, lastCtrlSym j2 rest none = some s2 → mapGet syms1 j2 = some s2 := by
        intro j2 s2 hr
        apply Hlast j2 s2
        rw [hit]
        exact lastCtrl_some_any_acc rest j2 s2 hr none
      obtain ⟨hc, hg⟩ := ih pm hcons Hself2 Hlast2
      refine ⟨hc, ?_⟩
      intro i s hl
      rw [hit] at hl
      exact hg i s hl
    | some sσ =>
      obtain ⟨v0, hv0⟩ := Hfound it.index sσ hσ
      obtain ⟨hfst, hcons2⟩ := resolve_found_consistent plugins hget hv0 hcons
      rw [patchItems_cons_some plugin uri syms1 pm it rest sσ hσ]
      have Hself2 : ∀ j2 s2 r2, Item.ctrl j2 s2 r2 ∈ rest → mapGet syms1 j2 ≠ none :=
        fun j2 s2 r2 hm => Hself j2 s2 r2 (List.mem_cons_of_mem _ hm)
      have Hlast2 : ∀ j2 s2, lastCtrlSym j2 rest none = some s2 → mapGet syms1 j2 = some s2 := by
        intro j2 s2 hr
        apply Hlast j2 s2
        cases it with
        | auto j r => exact lastCtrl_some_any_acc rest j2 s2 hr none
        | ctrl j s r =>
          rw [show lastCtrlSym j2 (Item.ctrl j s r :: rest) none
              = lastCtrlSym j2 rest (if j = j2 then some s else none) from rfl]
          exact lastCtrl_some_any_acc rest j2 s2 hr _
      obtain ⟨hc, hg⟩ := ih _ hcons2 Hself2 Hlast2
      refine ⟨hc, ?_⟩
      intro i s hl
      cases hit : it with
      | auto j r =>
        rw [hit] at hl
        exact hg i s hl
      | ctrl j sOwn r =>
        rw [hit] at hl
        rw [show (Item.ctrl j sOwn r).withIndex (pm.resolve plugin ⟨uri, sσ⟩).1
            = Item.ctrl (pm.resolve plugin ⟨uri, sσ⟩).1 sOwn r from rfl, hfst] at hl
        rw [show lastCtrlSym i (Item.ctrl v0 sOwn r
              :: (patchItems plugin uri syms1 (pm.resolve plugin ⟨uri, sσ⟩).2 rest).2) none
            = lastCtrlSym i (patchItems plugin uri syms1 (pm.resolve plugin ⟨uri, sσ⟩).2 rest).2
                (if v0 = i then some sOwn else none) from rfl] at hl
        by_cases hrest : lastCtrlSym i
            (patchItems plugin uri syms1 (pm.resolve plugin ⟨uri, sσ⟩).2 rest).2 none = none
        · rw [lastCtrl_none_any_acc _ i hrest _] at hl
          by_cases hvi : v0 = i
          · rw [if_pos hvi] at hl
            injection hl with hl
            subst hvi
            subst hl
            have hidx : (Item.ctrl j sOwn r).index = j := rfl
            rw [hit] at hσ
            rw [hidx] at hσ
            by_cases hrj : lastCtrlSym j rest none = none
            · have hall : lastCtrlSym j (Item.ctrl j sOwn r :: rest) none = some sOwn := by
                rw [show lastCtrlSym j (Item.ctrl j sOwn r :: rest) none
                    = lastCtrlSym j rest (if j = j then some sOwn else none) from rfl]
                rw [if_pos rfl]
                exact lastCtrl_none_any_acc rest j hrj _
              have hσ2 := Hlast j sOwn (by rw [hit]; exact hall)
              rw [hσ] at hσ2
              injection hσ2 with hσ2
              rw [hσ2] at hv0
              exact hv0
            · exfalso
              cases hsx : lastCtrlSym j rest none with
              | none => exact hrj hsx
              | some sx =>
                rcases lastCtrl_some_mem rest j sx none hsx with ⟨rx, hmx⟩ | habs
                · obtain ⟨r2, hr2⟩ := patchItems_ctrl_image plugins hget syms1 Hfound
                    rest (pm.resolve plugin ⟨uri, sσ⟩).2 j sx sσ rx v0 hcons2 hmx hσ hv0
                  exact lastCtrl_ne_none_of_mem _ v0 sx r2 hr2 none hrest
                · exact Option.noConfusion habs
          · rw [if_neg hvi] at hl
            exact Option.noConfusion hl
        · cases hsome : lastCtrlSym i
              (patchItems plugin uri syms1 (pm.resolve plugin ⟨uri, sσ⟩).2 rest).2 none with
          | none => exact absurd hsome hrest
          | some s2 =>
            have := lastCtrl_some_any_acc _ i s2 hsome (if v0 = i then some sOwn else none)
            rw [this] at hl
            injection hl with hl
            exact hl ▸ hg i s2 hsome

-- Claim C2 machinery, part 4: patchBlocks mirrors the run state

theorem build_parameters :
    ∀ (items : List Item) (p : Processor),
      (items.foldl buildStep p).parameters
        = p.parameters ++ items.map fun it => (it.index, it.loc) := by
  intro items
  induction items with
  | nil => intro p; simp
  | cons it rest ih =>
    intro p
    rw [List.foldl_cons, ih, List.map_cons]
    cases it with
    | auto j r => simp [buildStep, Item.index, Item.loc]
    | ctrl j s r => simp [buildStep, Item.index, Item.loc]

theorem build_uri :
    ∀ (items : List Item) (p : Processor), (items.foldl buildStep p).uri = p.uri := by
  intro items
  induction items with
  | nil => intro p; rfl
  | cons it rest ih =>
    intro p
    rw [List.foldl_cons, ih]
    cases it with
    | auto j r => rfl
    | ctrl j s r => rfl

theorem buildProcessor_uri (uri : String) (items : List Item) :
    (buildProcessor uri items).uri = uri := by
  unfold buildProcessor
  rw [build_uri]

theorem buildProcessor_parameters (uri : String) (items : List Item) :
    (buildProcessor uri items).parameters = items.map fun it => (it.index, it.loc) := by
  unfold buildProcessor
  rw [build_parameters]
  rfl

theorem stream_of_build (uri : String) (items : List Item) :
    (buildProcessor uri items).parameterStream
      = items.filterMap fun it =>
          (mapGet (buildProcessor uri items).symbols it.index).map
            fun s => ⟨s, it.loc, it.index⟩ := by
  unfold Processor.parameterStream
  rw [buildProcessor_parameters, List.filterMap_map]
  rfl

theorem stepParam_snd_pm (plugin : Plugin) (uri : String) (pm : PortMap)
    (reps : List Replacement) (param : Parameter) :
    (stepParam plugin uri (pm, reps) param).1
      = (pm.resolve plugin ⟨uri, param.symbol⟩).2 := by
  unfold stepParam
  by_cases h : (pm.resolve plugin ⟨uri, param.symbol⟩).1 = param.old_index
  · rw [if_pos h]
  · rw [if_neg h]

theorem patchItems_fst (plugin : Plugin) (uri : String) (syms : List (Nat × String)) :
    ∀ (items : List Item) (pm : PortMap),
      (patchItems plugin uri syms pm items).1
        = ((items.filterMap fun it =>
              (mapGet syms it.index).map fun s => Parameter.mk s it.loc it.index).foldl
            (stepParam plugin uri) (pm, [])).1 := by
  intro items
  induction items with
  | nil => intro pm; rfl
  | cons it rest ih =>
    intro pm
    cases hσ : mapGet syms it.index with
    | none =>
      rw [patchItems_cons_none plugin uri syms pm it rest hσ,
        List.filterMap_cons_none (by rw [hσ]; rfl)]
      exact ih pm
    | some s =>
      rw [patchItems_cons_some plugin uri syms pm it rest s hσ,
        List.filterMap_cons_some (by rw [hσ]; rfl), List.foldl_cons]
      rcases hq : stepParam plugin uri (pm, []) ⟨s, it.loc, it.index⟩ with ⟨pmX, a⟩
      have hpmX : pmX = (pm.resolve plugin ⟨uri, s⟩).2 := by
        have := stepParam_snd_pm plugin uri pm [] ⟨s, it.loc, it.index⟩
        rw [hq] at this
        exact this
      rw [stepFold_split]
      show (patchItems plugin uri syms (pm.resolve plugin ⟨uri, s⟩).2 rest).1 = _
      rw [ih, hpmX]

theorem patchBlocks_cons_none (plugins : Plugins) (pm : PortMap) (uri : String)
    (items : List Item) (rest : List (String × List Item))
    (h : plugins.get uri = none) :
    patchBlocks plugins pm ((uri, items) :: rest)
      = ((patchBlocks plugins pm rest).1, (uri, items) :: (patchBlocks plugins pm rest).2) := by
  conv_lhs => rw [patchBlocks]
  rw [h]

theorem patchBlocks_cons_some (plugins : Plugins) (pm : PortMap) (uri : String)
    (items : List Item) (rest : List (String × List Item)) (plugin : Plugin)
    (h : plugins.get uri = some plugin) :
    patchBlocks plugins pm ((uri, items) :: rest)
      = ((patchBlocks plugins
            (patchItems plugin uri (buildProcessor uri items).symbols pm items).1 rest).1,
         (uri, (patchItems plugin uri (buildProcessor uri items).symbols pm items).2)
           :: (patchBlocks plugins
                (patchItems plugin uri (buildProcessor uri items).symbols pm items).1 rest).2) := by
  conv_lhs => rw [patchBlocks]
  rw [h]

theorem patchBlocks_fst (plugins : Plugins) :
    ∀ (blocks : List (String × List Item)) (pm : PortMap),
      (patchBlocks plugins pm blocks).1
        = ((blocks.map fun b => buildProcessor b.1 b.2).foldl
            (handleProcessor plugins) (pm, [])).1 := by
  intro blocks
  induction blocks with
  | nil => intro pm; rfl
  | cons b rest ih =>
    intro pm
    rcases b with ⟨uri, items⟩
    rw [List.map_cons, List.foldl_cons]
    cases hg : plugins.get uri with
    | none =>
      rw [patchBlocks_cons_none plugins pm uri items rest hg]
      have hh : handleProcessor plugins (pm, []) (buildProcessor uri items) = (pm, []) := by
        rw [handleProcessor_eq, buildProcessor_uri, hg]
      rw [hh]
      exact ih pm
    | some plugin =>
      rw [patchBlocks_cons_some plugins pm uri items rest plugin hg]
      have hh : handleProcessor plugins (pm, []) (buildProcessor uri items)
          = ((buildProcessor uri items).parameterStream.foldl
              (stepParam plugin uri) (pm, []) : PortMap × List Replacement) := by
        rw [handleProcessor_eq, buildProcessor_uri, hg]
      rw [hh]
      rcases hq : (buildProcessor uri items).parameterStream.foldl
          (stepParam plugin uri) (pm, []) with ⟨pmX, a⟩
      have hpmX : (patchItems plugin uri (buildProcessor uri items).symbols pm items).1
          = pmX := by
        rw [patchItems_fst, ← stream_of_build]
        rw [hq]
      rw [show ((patchBlocks plugins
            (patchItems plugin uri (buildProcessor uri items).symbols pm items).1 rest).1,
          (uri, (patchItems plugin uri (buildProcessor uri items).symbols pm items).2)
            :: (patchBlocks plugins
                (patchItems plugin uri (buildProcessor uri items).symbols pm items).1 rest).2).1
          = (patchBlocks plugins
              (patchItems plugin uri (buildProcessor uri items).symbols pm items).1 rest).1
          from rfl]
      rw [ih, hpmX]
      rw [handleFold_split plugins ((rest.map fun b => buildProcessor b.1 b.2)) pmX a]

-- Claim C2, part 5: the amended claim, counterexample and witness

theorem patchBlocks_good (plugins : Plugins) :
    ∀ (blocks : List (String × List Item)) (pm : PortMap),
      Consistent plugins pm →
      blocksAllFound plugins blocks = true →
      Consistent plugins (patchBlocks plugins pm blocks).1
        ∧ ∀ b ∈ (patchBlocks plugins pm blocks).2, ∀ plugin,
            plugins.get b.1 = some plugin →
            ∀ i s, mapGet ((buildProcessor b.1 b.2).symbols) i = some s →
              plugin.port_index s = some i := by
  intro blocks
  induction blocks with
  | nil =>
    intro pm hcons _
    exact ⟨hcons, fun b hb => absurd hb (List.not_mem_nil _)⟩
  | cons blk rest ih =>
    intro pm hcons hall
    rcases blk with ⟨uri, items⟩
    rw [blocksAllFound, List.all_cons, Bool.and_eq_true] at hall
    cases hg : plugins.get uri with
    | none =>
      rw [patchBlocks_cons_none plugins pm uri items rest hg]
      obtain ⟨hc, hgood⟩ := ih pm hcons hall.2
      refine ⟨hc, ?_⟩
      intro b hb plugin hbp
      rcases List.mem_cons.1 hb with hh | hh
      · exfalso
        rw [hh] at hbp
        rw [show ((uri, items) : String × List Item).1 = uri from rfl, hg] at hbp
        exact Option.noConfusion hbp
      · exact hgood b hh plugin hbp
    | some plugin =>
      have hitems : ∀ it ∈ items, (match it with
          | Item.auto _ _ => true
          | Item.ctrl _ s _ => (plugin.port_index s).isSome) = true := by
        have h1 := hall.1
        rw [show ((uri, items) : String × List Item).1 = uri from rfl] at h1
        rw [hg] at h1
        rw [List.all_eq_true] at h1
        exact h1
      have HF1 : ∀ j s r, Item.ctrl j s r ∈ items →
          ∃ v, plugin.port_index s = some v := by
        intro j s r hm
        have := hitems _ hm
        rw [Option.isSome_iff_exists] at this
        exact this
      have Hfound : ∀ j s, mapGet ((buildProcessor uri items).symbols) j = some s →
          ∃ v, plugin.port_index s = some v := by
        intro j s hm
        rw [mapGet_buildProcessor_symbols] at hm
        rcases lastCtrl_some_mem items j s none hm with ⟨r, hmem⟩ | habs
        · exact HF1 j s r hmem
        · exact Option.noConfusion habs
      have Hself : ∀ j s r, Item.ctrl j s r ∈ items →
          mapGet ((buildProcessor uri items).symbols) j ≠ none := by
        intro j s r hm
        rw [mapGet_buildProcessor_symbols]
        exact lastCtrl_ne_none_of_mem items j s r hm none
      have Hlast : ∀ j s, lastCtrlSym j items none = some s →
          mapGet ((buildProcessor uri items).symbols) j = some s := by
        intro j s h
        rw [mapGet_buildProcessor_symbols]
        exact h
      obtain ⟨hc1, hgood1⟩ := patchItems_good plugins hg
        ((buildProcessor uri items).symbols) Hfound items pm hcons Hself Hlast
      rw [patchBlocks_cons_some plugins pm uri items rest plugin hg]
      obtain ⟨hc, hgood⟩ := ih _ hc1 hall.2
      refine ⟨hc, ?_⟩
      intro b hb plugin2 hbp
      rcases List.mem_cons.1 hb with hh | hh
      · rw [hh]
        rw [hh, show ((uri, (patchItems plugin uri
            ((buildProcessor uri items).symbols) pm items).2) : String × List Item).1
            = uri from rfl, hg] at hbp
        injection hbp with hbp
        intro i s hm
        rw [show ((uri, (patchItems plugin uri
            ((buildProcessor uri items).symbols) pm items).2) : String × List Item).2
            = (patchItems plugin uri ((buildProcessor uri items).symbols) pm items).2
            from rfl] at hm
        rw [mapGet_buildProcessor_symbols] at hm
        rw [← hbp]
        exact hgood1 i s hm
      · exact hgood b hh plugin2 hbp

theorem run2_no_edits (plugins : Plugins) :
    ∀ (blocks2 : List (String × List Item)) (pm : PortMap) (reps : List Replacement),
      Consistent plugins pm →
      (∀ b ∈ blocks2, ∀ plugin, plugins.get b.1 = some plugin →
          ∀ i s, mapGet ((buildProcessor b.1 b.2).symbols) i = some s →
            plugin.port_index s = some i) →
      ((blocks2.map fun b => buildProcessor b.1 b.2).foldl
          (handleProcessor plugins) (pm, reps)).2 = reps := by
  intro blocks2
  induction blocks2 with
  | nil => intro pm reps _ _; rfl
  | cons blk rest ih =>
    intro pm reps hcons hgood
    rcases blk with ⟨uri, items2⟩
    rw [List.map_cons, List.foldl_cons]
    cases hg : plugins.get uri with
    | none =>
      have hh : handleProcessor plugins (pm, reps) (buildProcessor uri items2) = (pm, reps) := by
        rw [handleProcessor_eq, buildProcessor_uri, hg]
      rw [hh]
      exact ih pm reps hcons (fun b hb => hgood b (List.mem_cons_of_mem _ hb))
    | some plugin =>
      have hstream : ∀ p ∈ (buildProcessor uri items2).parameterStream,
          plugin.port_index p.symbol = some p.old_index := by
        intro p hp
        have hsym := stream_mem_symbol _ p hp
        exact hgood (uri, items2) (List.mem_cons_self _ _) plugin
          (by rw [show ((uri, items2) : String × List Item).1 = uri from rfl]; exact hg)
          p.old_index p.symbol hsym
      obtain ⟨hnil, hcons2⟩ := blockFold_no_adds plugins hg
        (buildProcessor uri items2).parameterStream pm hcons hstream
      have hh : handleProcessor plugins (pm, reps) (buildProcessor uri items2)
          = ((((buildProcessor uri items2).parameterStream.foldl
                (stepParam plugin uri) (pm, []))).1, reps) := by
        rw [handleProcessor_eq, buildProcessor_uri, hg]
        show (buildProcessor uri items2).parameterStream.foldl (stepParam plugin uri) (pm, reps)
          = _
        rw [stepFold_split, hnil, List.append_nil]
      rw [hh]
      exact ih _ reps hcons2 (fun b hb => hgood b (List.mem_cons_of_mem _ hb))

/-- Claim C2 as amended: when the provider resolves every Controllable
symbol of every block whose plugin is found — so no fallback index is ever
assigned — running the patch a second time over the document the first run
produced (its blocks with each resolvable occurrence rewritten to the
resolved index, which is exactly what re-parsing the rendered output
extracts) generates no replacements; and patchBlocks tracks the first run
faithfully: its PortMap equals the PortMap of the actual run. -/
theorem c2_second_run_clean_amended (plugins : Plugins)
    (blocks : List (String × List Item))
    (hfound : blocksAllFound plugins blocks = true) :
    (((patchBlocks plugins ⟨[], []⟩ blocks).2.map fun b => buildProcessor b.1 b.2).foldl
        (handleProcessor plugins) (⟨[], []⟩, [])).2 = []
      ∧ (patchBlocks plugins ⟨[], []⟩ blocks).1
          = ((blocks.map fun b => buildProcessor b.1 b.2).foldl
              (handleProcessor plugins) (⟨[], []⟩, [])).1 := by
  obtain ⟨hc, hgood⟩ :=
    patchBlocks_good plugins blocks ⟨[], []⟩ (consistent_empty plugins) hfound
  exact ⟨run2_no_edits plugins _ ⟨[], []⟩ [] (consistent_empty plugins) hgood,
    patchBlocks_fst plugins blocks ⟨[], []⟩⟩

set_option maxRecDepth 100000 in
/-- Counterexample to claim C2 as stated: a stale index holder occurrence
(parameter-11, no symbol in run one, untouched) collides with a fallback
index the first run assigns.  The first run maps a to 10 and b to 11; its
output parses back to a tree in which the occurrence 11 now has symbol b in
the map, so the second run resolves b first, assigns it fallback 10, and
generates fresh edits: the second output differs from the first. -/
theorem c2_counterexample :
    treeMatches cexAXml cexATree = true
      ∧ treeMatches cexBXml cexBTree = true
      ∧ patchText cexPlugins cexATree cexAXml = cexBXml
      ∧ (populateReplacements cexPlugins cexBTree).2
          = [⟨⟨80, 82⟩, 10⟩, ⟨⟨110, 112⟩, 11⟩, ⟨⟨151, 153⟩, 10⟩]
      ∧ patchText cexPlugins cexBTree cexBXml ≠ cexBXml := by
  refine ⟨by decide, by decide, by decide, by decide, by decide⟩

/-- Witness for the amended claim C2 at a concrete input: the first run does
produce an edit (3 becomes 7), and the second run over the updated document
produces none, with patchBlocks agreeing with the run PortMap. -/
theorem c2_witness :
    blocksAllFound c2WPlugins c2WBlocks = true
      ∧ ((c2WBlocks.map fun b => buildProcessor b.1 b.2).foldl
          (handleProcessor c2WPlugins) (⟨[], []⟩, [])).2 ≠ []
      ∧ (((patchBlocks c2WPlugins ⟨[], []⟩ c2WBlocks).2.map
            fun b => buildProcessor b.1 b.2).foldl
          (handleProcessor c2WPlugins) (⟨[], []⟩, [])).2 = []
      ∧ (patchBlocks c2WPlugins ⟨[], []⟩ c2WBlocks).1
          = ((c2WBlocks.map fun b => buildProcessor b.1 b.2).foldl
              (handleProcessor c2WPlugins) (⟨[], []⟩, [])).1 :=
  ⟨by decide, by decide,
   (c2_second_run_clean_amended c2WPlugins c2WBlocks (by decide)).1,
   (c2_second_run_clean_amended c2WPlugins c2WBlocks (by decide)).2⟩
